import Mathlib

/-!
Verification of the task-tree compiler and scoped-strategy executor of
`task-tree-js` (`src/task.ts`, sample strategies from the README).

The embedding follows the source:

* `TaskNode` mirrors the `TaskNode` tagged union (`leaf` / `sequence` /
  `parallel`).  JavaScript object identity, which the compiler uses for
  anchor tracking (`node === startMarker`), is modelled by caller-assigned
  numeric ids on tree nodes and compiler-fresh ids (a counter) on scope
  markers and synthetic parallel leaves; the two live in disjoint
  namespaces of the `Ident` type, mirroring the fact that a freshly
  allocated JS object is never `===` to a pre-existing one.
* Values flowing through tasks are modelled by the first-order type
  `V` (strings and ordered string-keyed objects); a task is a function
  `V → Except String V`, where `Except.error` models a rejected promise.
* `flattenStep` is one iteration of the `flatten` work-queue loop;
  `flattenAt n t` runs `n` iterations and, if the queue has reached the
  all-leaf state, rotates it with `align` (`none` models the
  "fail to find marker" throw).
* `execSteps` is the `execute` stack machine;
  `runTreeF fuel t v` is `leafChainOf(t)(v)`, with a fuel bound on the
  recursion depth through `parallel` synthetic leaves (the only
  non-structural recursion in the source).
-/

inductive V where
  | str (s : String)
  | obj (fields : List (String × V))

abbrev Res := Except String V

structure LeafRec where
  name : String
  task : V → Res

structure Strategy where
  sid : Nat
  fn : Res → LeafRec → Res

inductive TaskNode where
  | leaf (id : Nat) (name : String) (task : V → Res)
  | sequence (id : Nat) (name : String) (children : List TaskNode)
      (strategy : Option Strategy)
  | parallel (id : Nat) (name : String) (children : List TaskNode)
      (strategy : Option Strategy)

namespace TaskNode

def idOf : TaskNode → Nat
  | .leaf i _ _ => i
  | .sequence i _ _ _ => i
  | .parallel i _ _ _ => i

def nameOf : TaskNode → String
  | .leaf _ n _ => n
  | .sequence _ n _ _ => n
  | .parallel _ n _ _ => n

def allIds : TaskNode → List Nat
  | .leaf i _ _ => [i]
  | .sequence i _ ch _ => i :: ch.attach.flatMap (fun c => allIds c.1)
  | .parallel i _ ch _ => i :: ch.attach.flatMap (fun c => allIds c.1)
decreasing_by
  all_goals (have h1 := List.sizeOf_lt_of_mem c.2; simp_wf; omega)

def seqsOK : TaskNode → Bool
  | .leaf _ _ _ => true
  | .sequence _ _ ch _ => !ch.isEmpty && ch.attach.all (fun c => seqsOK c.1)
  | .parallel _ _ ch _ => ch.attach.all (fun c => seqsOK c.1)
decreasing_by
  all_goals (have h1 := List.sizeOf_lt_of_mem c.2; simp_wf; omega)

def noStrat : TaskNode → Bool
  | .leaf _ _ _ => true
  | .sequence _ _ ch st => st.isNone && ch.attach.all (fun c => noStrat c.1)
  | .parallel _ _ ch st => st.isNone && ch.attach.all (fun c => noStrat c.1)
decreasing_by
  all_goals (have h1 := List.sizeOf_lt_of_mem c.2; simp_wf; omega)

end TaskNode

def innerZip {α β : Type} : List α → List β → List (α × β)
  | a :: as, b :: bs => (a, b) :: innerZip as bs
  | _, _ => []

def setKey : List (String × V) → String → V → List (String × V)
  | [], k, v => [(k, v)]
  | (k', v') :: rest, k, v =>
      if k' = k then (k', v) :: rest else (k', v') :: setKey rest k v

def fromEntries (ps : List (String × V)) : List (String × V) :=
  ps.foldl (fun acc p => setKey acc p.1 p.2) []

def assocLookup (m : List (String × V)) (k : String) : Option V :=
  match m with
  | [] => none
  | (k', v') :: rest => if k' = k then some v' else assocLookup rest k

def lastVal (ps : List (String × V)) (k : String) : Option V :=
  match ps with
  | [] => none
  | (k', v') :: rest =>
      match lastVal rest k with
      | some v => some v
      | none => if k' = k then some v' else none

def collectAll : List Res → Except String (List V)
  | [] => .ok []
  | .ok v :: rest => (collectAll rest).map (fun vs => v :: vs)
  | .error e :: _ => .error e

inductive EItem where
  | leafE (id : Nat) (name : String) (task : V → Res)
  | synE (name : String) (children : List TaskNode)
  | markerE (isStart : Bool) (strat : Strategy)

def wrapStrat (st : Option Strategy) (xs : List EItem) : List EItem :=
  match st with
  | none => xs
  | some s => .markerE true s :: xs ++ [.markerE false s]

def chainOfE : TaskNode → List EItem
  | .leaf i n task => [.leafE i n task]
  | .sequence _ _ ch st => wrapStrat st (ch.attach.flatMap (fun c => chainOfE c.1))
  | .parallel _ nm ch st => wrapStrat st [.synE nm ch]
decreasing_by
  all_goals (have h1 := List.sizeOf_lt_of_mem c.2; simp_wf; omega)

def denote : TaskNode → V → Res
  | .leaf _ _ task => task
  | .sequence _ _ ch _ => fun v =>
      ch.attach.foldl (fun acc c => acc.bind (denote c.1)) (.ok v)
  | .parallel _ _ ch _ => fun v =>
      (collectAll (ch.attach.map (fun c => denote c.1 v))).map
        (fun rs => V.obj (fromEntries ((ch.map TaskNode.nameOf).zip rs)))
decreasing_by
  all_goals (have h1 := List.sizeOf_lt_of_mem c.2; simp_wf; omega)

def innerSid (st : Option Strategy) (cur : Option Nat) : Option Nat :=
  match st with
  | some s => some s.sid
  | none => cur

def leafAssign : TaskNode → Option Nat → List (String × Option Nat)
  | .leaf _ n _, cur => [(n, cur)]
  | .sequence _ _ ch st, cur =>
      ch.attach.flatMap (fun c => leafAssign c.1 (innerSid st cur))
  | .parallel _ nm _ st, cur => [(nm, innerSid st cur)]
decreasing_by
  all_goals (have h1 := List.sizeOf_lt_of_mem c.2; simp_wf; omega)

def tsizeW : TaskNode → Nat
  | .leaf _ _ _ => 1
  | .sequence _ _ ch _ => 1 + (ch.attach.map (fun c => tsizeW c.1)).sum
  | .parallel _ _ ch _ => 1 + (ch.attach.map (fun c => tsizeW c.1)).sum
decreasing_by
  all_goals (have h1 := List.sizeOf_lt_of_mem c.2; simp_wf; omega)

inductive SpineIn : TaskNode → TaskNode → Prop where
  | refl (t : TaskNode) : SpineIn t t
  | inSeq (s c : TaskNode) (i : Nat) (nm : String) (ch : List TaskNode)
      (st : Option Strategy) :
      c ∈ ch → SpineIn s c → SpineIn s (.sequence i nm ch st)

inductive Ident where
  | tree (i : Nat)
  | fresh (k : Nat)
deriving DecidableEq

inductive QElem where
  | tnode (t : TaskNode)
  | syn (k : Nat) (name : String) (children : List TaskNode)
  | marker (k : Nat) (isStart : Bool) (strat : Strategy)

namespace QElem

def qid : QElem → Ident
  | .tnode t => .tree t.idOf
  | .syn k _ _ => .fresh k
  | .marker k _ _ => .fresh k

def isTerminal : QElem → Bool
  | .tnode (.leaf _ _ _) => true
  | .tnode _ => false
  | .syn _ _ _ => true
  | .marker _ _ _ => true

end QElem

def isEveryLeaf (q : List QElem) : Bool := q.all QElem.isTerminal

structure FlatState where
  queue : List QElem
  anchor : Option Ident
  counter : Nat

def flattenStep (s : FlatState) : FlatState :=
  if isEveryLeaf s.queue then s
  else
    match s.queue with
    | [] => s
    | e :: rest =>
      match e with
      | .syn _ _ _ => ⟨rest ++ [e], s.anchor, s.counter⟩
      | .marker _ _ _ => ⟨rest ++ [e], s.anchor, s.counter⟩
      | .tnode (.leaf _ _ _) => ⟨rest ++ [e], s.anchor, s.counter⟩
      | .tnode (.sequence i _nm ch st) =>
        match st with
        | none =>
          ⟨rest ++ ch.map .tnode,
           if s.anchor = some (.tree i)
             then ch.head?.map (fun c => .tree c.idOf) else s.anchor,
           s.counter⟩
        | some str =>
          ⟨rest ++ .marker s.counter true str :: ch.map .tnode
                ++ [.marker (s.counter + 1) false str],
           if s.anchor = some (.tree i)
             then some (.fresh s.counter) else s.anchor,
           s.counter + 2⟩
      | .tnode (.parallel i pnm ch st) =>
        match st with
        | none =>
          ⟨rest ++ [.syn s.counter pnm ch],
           if s.anchor = some (.tree i)
             then some (.fresh s.counter) else s.anchor,
           s.counter + 1⟩
        | some str =>
          ⟨rest ++ .marker (s.counter + 1) true str
                :: .syn s.counter pnm ch
                :: [.marker (s.counter + 2) false str],
           if s.anchor = some (.tree i)
             then some (.fresh (s.counter + 1)) else s.anchor,
           s.counter + 3⟩

def initState (t : TaskNode) : FlatState :=
  ⟨[.tnode t], some (.tree t.idOf), 0⟩

def align (queue : List QElem) (anchor : Option Ident) :
    Option (List QElem) :=
  match queue.findIdx? (fun e => some e.qid = anchor) with
  | none => none
  | some i => some (queue.drop i ++ queue.take i)

def flattenAt (n : Nat) (t : TaskNode) : Option (List QElem) :=
  let s := flattenStep^[n] (initState t)
  if isEveryLeaf s.queue then align s.queue s.anchor else none

def erase : QElem → EItem
  | .tnode (.leaf i n task) => .leafE i n task
  | .tnode t => .leafE t.idOf t.nameOf (fun _ => .error "unreachable")
  | .syn _ n ch => .synE n ch
  | .marker _ b st => .markerE b st

def applyLeaf (stack : List Strategy) (r : Res) (lf : LeafRec) : Res :=
  match stack with
  | [] => r.bind lf.task
  | s :: _ => s.fn r lf

def synTask (childRun : TaskNode → V → Res) (ch : List TaskNode) : V → Res :=
  fun v =>
    (collectAll (ch.map (fun c => childRun c v))).map
      (fun rs => V.obj (fromEntries (innerZip (ch.map TaskNode.nameOf) rs)))

def execSteps (childRun : TaskNode → V → Res) :
    List EItem → List Strategy → Res → List Strategy × Res
  | [], st, r => (st, r)
  | .markerE true s :: rest, st, r => execSteps childRun rest (s :: st) r
  | .markerE false _ :: rest, st, r => execSteps childRun rest st.tail r
  | .leafE _ n task :: rest, st, r =>
      execSteps childRun rest st (applyLeaf st r ⟨n, task⟩)
  | .synE n ch :: rest, st, r =>
      execSteps childRun rest st (applyLeaf st r ⟨n, synTask childRun ch⟩)

def runTreeF : Nat → TaskNode → V → Res
  | 0, _, _ => .error "out of fuel"
  | fuel + 1, t, v =>
      match flattenAt (fuel + 1) t with
      | none => .error "fail to find marker"
      | some q =>
          (execSteps (fun c v' => runTreeF fuel c v') (q.map erase) []
            (.ok v)).2

def assignSteps :
    List EItem → List Strategy → List (String × Option Nat) × List Strategy
  | [], st => ([], st)
  | .markerE true s :: rest, st => assignSteps rest (s :: st)
  | .markerE false _ :: rest, st => assignSteps rest st.tail
  | .leafE _ n _ :: rest, st =>
      let p := assignSteps rest st
      ((n, st.head?.map Strategy.sid) :: p.1, p.2)
  | .synE n _ :: rest, st =>
      let p := assignSteps rest st
      ((n, st.head?.map Strategy.sid) :: p.1, p.2)

def nestOk : List EItem → List Nat → Bool
  | [], st => st.isEmpty
  | .markerE true s :: rest, st => nestOk rest (s.sid :: st)
  | .markerE false s :: rest, st =>
      match st with
      | [] => false
      | x :: st' => x = s.sid && nestOk rest st'
  | .leafE _ _ _ :: rest, st => nestOk rest st
  | .synE _ _ :: rest, st => nestOk rest st

def retryLoop (outcomes : Nat → Res) :
    Nat → Nat → Option String → Res × Nat
  | 0, calls, lastErr => (.error (lastErr.getD "undefined"), calls)
  | remaining + 1, calls, _lastErr =>
      match outcomes calls with
      | .ok v => (.ok v, calls + 1)
      | .error e => retryLoop outcomes remaining (calls + 1) (some e)

def retryRun (maxAttempts : Nat) (outcomes : Nat → Res) : Res × Nat :=
  retryLoop outcomes maxAttempts 0 none

def welem : QElem → Nat
  | .tnode t => tsizeW t
  | .syn _ _ _ => 0
  | .marker _ _ _ => 0

def structW (q : List QElem) : Nat := (q.map welem).sum

def firstNT (q : List QElem) : Nat := q.findIdx (fun e => !e.isTerminal)

def eOf : QElem → List EItem
  | .tnode t => chainOfE t
  | .syn _ n ch => [.synE n ch]
  | .marker _ b st => [.markerE b st]

def flatE (q : List QElem) : List EItem := q.flatMap eOf

def poolOf : QElem → List Ident
  | .tnode t => t.allIds.map .tree
  | .syn k _ _ => [.fresh k]
  | .marker k _ _ => [.fresh k]

def pool (q : List QElem) : List Ident := q.flatMap poolOf

structure LoopInv (C : List EItem) (s : FlatState) : Prop where
  split : ∃ A e B, s.queue = A ++ e :: B ∧ some e.qid = s.anchor ∧
            flatE (e :: (B ++ A)) = C
  nodup : (pool s.queue).Nodup
  bound : ∀ j, Ident.fresh j ∈ pool s.queue → j < s.counter
  seqs : ∀ t, QElem.tnode t ∈ s.queue → TaskNode.seqsOK t = true

def synKids : TaskNode → List TaskNode
  | .leaf _ _ _ => []
  | .sequence _ _ ch _ => ch.attach.flatMap (fun c => synKids c.1)
  | .parallel _ _ ch _ => ch
decreasing_by
  all_goals (have h1 := List.sizeOf_lt_of_mem c.2; simp_wf; omega)

/-! ### Fixtures for concrete witnesses and counterexamples -/

def wTree1 : TaskNode :=
  .sequence 0 "rootask"
    [.sequence 1 "task1_1"
      [.leaf 2 "task2_1"
        (fun v => match v with
          | .str s => .ok (.str (s ++ "task2_1"))
          | _ => .error "type"),
       .parallel 3 "task2_2"
        [.leaf 4 "p1"
          (fun v => match v with
            | .str s => .ok (.str (s ++ "p1"))
            | _ => .error "type"),
         .leaf 5 "p2"
          (fun v => match v with
            | .str s => .ok (.str (s ++ "p2"))
            | _ => .error "type")] none] none,
     .leaf 6 "task1_2" (fun v => .ok v)] none

def stratA : Strategy := ⟨1, fun r lf => r.bind lf.task⟩

def stratB : Strategy := ⟨2, fun r lf => r.bind lf.task⟩

def wTree2 : TaskNode :=
  .sequence 0 "outer"
    [.leaf 1 "task1" (fun v => .ok v),
     .sequence 2 "inner" [.leaf 3 "task2" (fun v => .ok v)] (some stratB),
     .leaf 4 "task3" (fun v => .ok v)] (some stratA)

def wTree5 : TaskNode :=
  .sequence 0 "outer"
    [.leaf 1 "a" (fun v => .ok v),
     .sequence 2 "inner" [.leaf 3 "b" (fun v => .ok v)] none] none

def cex3tree : TaskNode := .sequence 0 "r" [] none

def recoverStrat : Strategy := ⟨99, fun _r lf => lf.task (V.str "recovered")⟩

def cex8tree : TaskNode :=
  .sequence 0 "root"
    [.leaf 1 "boom" (fun _ => .error "boom"),
     .sequence 2 "rescue" [.leaf 3 "fix" (fun v => .ok v)]
       (some recoverStrat)] none

/-- Strong induction on the size of a task tree. -/
theorem sizeOf_rec (P : TaskNode → Prop)
    (h : ∀ t : TaskNode, (∀ s : TaskNode, sizeOf s < sizeOf t → P s) → P t) :
    ∀ t, P t := by
  intro t
  exact WellFounded.induction (InvImage.wf sizeOf Nat.lt_wfRel.wf) t
    (fun x ih => h x (fun s hs => ih s hs))

theorem TaskNode.my_ind (P : TaskNode → Prop)
    (hleaf : ∀ i n task, P (.leaf i n task))
    (hseq : ∀ i n ch st, (∀ c ∈ ch, P c) → P (.sequence i n ch st))
    (hpar : ∀ i n ch st, (∀ c ∈ ch, P c) → P (.parallel i n ch st)) :
    ∀ t, P t := by
  refine sizeOf_rec P ?_
  intro t ih
  cases t with
  | leaf i n task => exact hleaf i n task
  | sequence i n ch st =>
    refine hseq i n ch st (fun c hc => ih c ?_)
    have h1 := List.sizeOf_lt_of_mem hc
    simp only [TaskNode.sequence.sizeOf_spec]; omega
  | parallel i n ch st =>
    refine hpar i n ch st (fun c hc => ih c ?_)
    have h1 := List.sizeOf_lt_of_mem hc
    simp only [TaskNode.parallel.sizeOf_spec]; omega

theorem all_map_comp {α β : Type} (l : List α) (g : α → β) (p : β → Bool) :
    (l.map g).all p = l.all (p ∘ g) := by
  induction l with
  | nil => rfl
  | cons x xs ih => simp_all [List.all]

theorem attach_flatMap_eq {α β : Type} (l : List α) (f : α → List β) :
    l.attach.flatMap (fun c => f c.1) = l.flatMap f := by
  rw [List.flatMap_def, List.flatMap_def, List.attach_map_val]

theorem attach_all_eq {α : Type} (l : List α) (f : α → Bool) :
    l.attach.all (fun c => f c.1) = l.all f := by
  conv_rhs => rw [← List.attach_map_subtype_val l, all_map_comp]
  rfl

theorem attach_map_eq {α β : Type} (l : List α) (f : α → β) :
    l.attach.map (fun c => f c.1) = l.map f := List.attach_map_val l f

namespace TaskNode

theorem allIds_leaf (i : Nat) (n : String) (task : V → Res) :
    allIds (.leaf i n task) = [i] := by
  simp [allIds]

theorem allIds_sequence (i : Nat) (n : String) (ch : List TaskNode)
    (st : Option Strategy) :
    allIds (.sequence i n ch st) = i :: ch.flatMap allIds := by
  rw [allIds, attach_flatMap_eq]

theorem allIds_parallel (i : Nat) (n : String) (ch : List TaskNode)
    (st : Option Strategy) :
    allIds (.parallel i n ch st) = i :: ch.flatMap allIds := by
  rw [allIds, attach_flatMap_eq]

theorem seqsOK_sequence (i : Nat) (n : String) (ch : List TaskNode)
    (st : Option Strategy) :
    seqsOK (.sequence i n ch st) = (!ch.isEmpty && ch.all seqsOK) := by
  rw [seqsOK, attach_all_eq]

theorem seqsOK_parallel (i : Nat) (n : String) (ch : List TaskNode)
    (st : Option Strategy) :
    seqsOK (.parallel i n ch st) = ch.all seqsOK := by
  rw [seqsOK, attach_all_eq]

theorem noStrat_sequence (i : Nat) (n : String) (ch : List TaskNode)
    (st : Option Strategy) :
    noStrat (.sequence i n ch st) = (st.isNone && ch.all noStrat) := by
  rw [noStrat, attach_all_eq]

theorem noStrat_parallel (i : Nat) (n : String) (ch : List TaskNode)
    (st : Option Strategy) :
    noStrat (.parallel i n ch st) = (st.isNone && ch.all noStrat) := by
  rw [noStrat, attach_all_eq]

end TaskNode

theorem innerZip_eq_zip {α β : Type} (as : List α) (bs : List β) :
    innerZip as bs = as.zip bs := by
  induction as generalizing bs with
  | nil => cases bs <;> rfl
  | cons a as ih => cases bs with
    | nil => rfl
    | cons b bs => simp [innerZip, List.zip_cons_cons, ih]

theorem chainOfE_leaf (i : Nat) (n : String) (task : V → Res) :
    chainOfE (.leaf i n task) = [.leafE i n task] := by
  simp [chainOfE]

theorem chainOfE_sequence (i : Nat) (n : String) (ch : List TaskNode)
    (st : Option Strategy) :
    chainOfE (.sequence i n ch st) = wrapStrat st (ch.flatMap chainOfE) := by
  rw [chainOfE, attach_flatMap_eq]

theorem chainOfE_parallel (i : Nat) (nm : String) (ch : List TaskNode)
    (st : Option Strategy) :
    chainOfE (.parallel i nm ch st) = wrapStrat st [.synE nm ch] := by
  rw [chainOfE]

theorem attach_foldl_eq {α β : Type} (l : List α) (g : β → α → β) (init : β) :
    l.attach.foldl (fun acc c => g acc c.1) init = l.foldl g init := by
  conv_rhs => rw [← List.attach_map_subtype_val l, List.foldl_map]

theorem denote_leaf (i : Nat) (n : String) (task : V → Res) (v : V) :
    denote (.leaf i n task) v = task v := by
  rw [denote]

theorem denote_sequence (i : Nat) (n : String) (ch : List TaskNode)
    (st : Option Strategy) (v : V) :
    denote (.sequence i n ch st) v
      = ch.foldl (fun acc c => acc.bind (denote c)) (.ok v) := by
  simp only [denote]
  exact attach_foldl_eq ch (fun acc c => Except.bind acc (denote c)) (Except.ok v)

theorem denote_parallel (i : Nat) (nm : String) (ch : List TaskNode)
    (st : Option Strategy) (v : V) :
    denote (.parallel i nm ch st) v
      = (collectAll (ch.map (fun c => denote c v))).map
          (fun rs => V.obj (fromEntries ((ch.map TaskNode.nameOf).zip rs))) := by
  simp only [denote]
  rw [attach_map_eq ch (fun c => denote c v)]

theorem leafAssign_sequence (i : Nat) (n : String) (ch : List TaskNode)
    (st : Option Strategy) (cur : Option Nat) :
    leafAssign (.sequence i n ch st) cur
      = ch.flatMap (fun c => leafAssign c (innerSid st cur)) := by
  rw [leafAssign, attach_flatMap_eq ch (fun c => leafAssign c (innerSid st cur))]

theorem tsizeW_sequence (i : Nat) (n : String) (ch : List TaskNode)
    (st : Option Strategy) :
    tsizeW (.sequence i n ch st) = 1 + (ch.map tsizeW).sum := by
  rw [tsizeW, attach_map_eq ch (fun c => tsizeW c)]

theorem tsizeW_parallel (i : Nat) (n : String) (ch : List TaskNode)
    (st : Option Strategy) :
    tsizeW (.parallel i n ch st) = 1 + (ch.map tsizeW).sum := by
  rw [tsizeW, attach_map_eq ch (fun c => tsizeW c)]

/-! ### Termination of the flatten loop -/

theorem structW_append (xs ys : List QElem) :
    structW (xs ++ ys) = structW xs + structW ys := by
  simp [structW]

theorem structW_cons (e : QElem) (xs : List QElem) :
    structW (e :: xs) = welem e + structW xs := by
  simp [structW]

theorem structW_tnodes (ch : List TaskNode) :
    structW (ch.map .tnode) = (ch.map tsizeW).sum := by
  simp [structW, List.map_map]; rfl

theorem findIdx_append_of_exists {p : QElem → Bool} {R : List QElem}
    (S : List QElem) (h : ∃ x ∈ R, p x = true) :
    (R ++ S).findIdx p = R.findIdx p := by
  induction R with
  | nil => simp at h
  | cons a R ih =>
    by_cases ha : p a = true
    · simp [List.findIdx_cons, ha]
    · have ha' : p a = false := by simpa using ha
      rcases h with ⟨x, hx, hpx⟩
      rcases List.mem_cons.1 hx with hx' | hx'
      · subst hx'; simp_all
      · simp [List.findIdx_cons, ha', ih ⟨x, hx', hpx⟩]

theorem not_done_exists {q : List QElem} (h : isEveryLeaf q = false) :
    ∃ x ∈ q, x.isTerminal = false := by
  rw [isEveryLeaf, List.all_eq_false] at h
  obtain ⟨x, hx, hpx⟩ := h
  exact ⟨x, hx, by simpa using hpx⟩

theorem step_of_not_done {e : QElem} {rest : List QElem}
    {A : Option Ident} {K : Nat}
    (h : isEveryLeaf (e :: rest) = false) (ht : e.isTerminal = true) :
    flattenStep ⟨e :: rest, A, K⟩ = ⟨rest ++ [e], A, K⟩ := by
  cases e with
  | tnode t =>
    cases t with
    | leaf i n task => simp [flattenStep, h]
    | sequence i n ch st => simp [QElem.isTerminal] at ht
    | parallel i n ch st => simp [QElem.isTerminal] at ht
  | syn k n ch => simp [flattenStep, h]
  | marker k b st => simp [flattenStep, h]

theorem decrease_term {e : QElem} {rest : List QElem}
    (h : isEveryLeaf (e :: rest) = false) (ht : e.isTerminal = true) :
    structW (rest ++ [e]) = structW (e :: rest) ∧
      firstNT (rest ++ [e]) < firstNT (e :: rest) := by
  constructor
  · rw [structW_append, structW_cons, structW_cons]
    simp [structW]; omega
  · obtain ⟨x, hx, hxt⟩ := not_done_exists h
    rcases List.mem_cons.1 hx with hx' | hx'
    · subst hx'; rw [ht] at hxt; cases hxt
    · rw [firstNT, firstNT,
        findIdx_append_of_exists _ ⟨x, hx', by simp [hxt]⟩,
        List.findIdx_cons]
      simp [ht]

theorem step_decreases (s : FlatState) (h : isEveryLeaf s.queue = false) :
    structW (flattenStep s).queue < structW s.queue ∨
      (structW (flattenStep s).queue = structW s.queue ∧
        firstNT (flattenStep s).queue < firstNT s.queue) := by
  obtain ⟨Q, A, K⟩ := s
  simp only at h
  rcases hq : Q with _ | ⟨e, rest⟩
  · rw [hq] at h; simp [isEveryLeaf] at h
  subst hq
  cases e with
  | tnode t =>
    cases t with
    | leaf i n task =>
      right
      rw [step_of_not_done h rfl]
      exact decrease_term h rfl
    | sequence i nm ch st =>
      left
      cases st with
      | none =>
        have : flattenStep ⟨.tnode (.sequence i nm ch none) :: rest, A, K⟩
            = ⟨rest ++ ch.map .tnode,
               if A = some (.tree i)
                 then ch.head?.map (fun c => .tree c.idOf) else A,
               K⟩ := by
          simp [flattenStep, h]
        rw [this]
        simp only [structW_append, structW_cons, structW_tnodes, welem,
          tsizeW_sequence]
        omega
      | some str =>
        have : flattenStep ⟨.tnode (.sequence i nm ch (some str)) :: rest, A, K⟩
            = ⟨rest ++ .marker K true str :: ch.map .tnode
                    ++ [.marker (K + 1) false str],
               if A = some (.tree i) then some (.fresh K) else A,
               K + 2⟩ := by
          simp [flattenStep, h]
        rw [this]
        simp only [structW_append, structW_cons, structW_tnodes, welem,
          tsizeW_sequence]
        simp [structW, structW_cons, welem, structW_tnodes]
        omega
    | parallel i nm ch st =>
      left
      cases st with
      | none =>
        have : flattenStep ⟨.tnode (.parallel i nm ch none) :: rest, A, K⟩
            = ⟨rest ++ [.syn K nm ch],
               if A = some (.tree i) then some (.fresh K) else A,
               K + 1⟩ := by
          simp [flattenStep, h]
        rw [this]
        simp only [structW_append, structW_cons, welem, tsizeW_parallel]
        simp [structW, welem]
      | some str =>
        have : flattenStep ⟨.tnode (.parallel i nm ch (some str)) :: rest, A, K⟩
            = ⟨rest ++ .marker (K + 1) true str :: .syn K nm ch
                    :: [.marker (K + 2) false str],
               if A = some (.tree i) then some (.fresh (K + 1)) else A,
               K + 3⟩ := by
          simp [flattenStep, h]
        rw [this]
        simp only [structW_append, structW_cons, welem, tsizeW_parallel]
        simp [structW, structW_cons, welem]
  | syn k n ch =>
    right
    rw [step_of_not_done h rfl]
    exact decrease_term h rfl
  | marker k b st =>
    right
    rw [step_of_not_done h rfl]
    exact decrease_term h rfl

theorem step_of_done {s : FlatState} (h : isEveryLeaf s.queue = true) :
    flattenStep s = s := by
  rw [flattenStep]
  simp [h]

theorem iterate_of_done {s : FlatState} (n : Nat)
    (h : isEveryLeaf s.queue = true) : flattenStep^[n] s = s := by
  induction n with
  | zero => rfl
  | succ n ih => rw [Function.iterate_succ_apply', ih, step_of_done h]

theorem iterate_stable {s : FlatState} {m n : Nat} (hmn : m ≤ n)
    (h : isEveryLeaf ((flattenStep^[m] s).queue) = true) :
    flattenStep^[n] s = flattenStep^[m] s := by
  have hn : n = (n - m) + m := by omega
  rw [hn, Function.iterate_add_apply, iterate_of_done _ h]

theorem ex_done_aux (I : Nat) :
    ∀ s : FlatState, firstNT s.queue = I →
    (∀ s' : FlatState, structW s'.queue < structW s.queue →
      ∃ n, isEveryLeaf ((flattenStep^[n] s').queue) = true) →
    ∃ n, isEveryLeaf ((flattenStep^[n] s).queue) = true := by
  induction I using Nat.strong_induction_on with
  | _ I ih =>
    intro s hI hW
    by_cases hdone : isEveryLeaf s.queue = true
    · exact ⟨0, hdone⟩
    · have h : isEveryLeaf s.queue = false := by simpa using hdone
      rcases step_decreases s h with hlt | ⟨heq, hlt⟩
      · obtain ⟨n, hn⟩ := hW (flattenStep s) hlt
        exact ⟨n + 1, by rwa [Function.iterate_succ_apply]⟩
      · obtain ⟨n, hn⟩ := ih (firstNT (flattenStep s).queue) (hI ▸ hlt)
          (flattenStep s) rfl (fun s' hs' => hW s' (heq ▸ hs'))
        exact ⟨n + 1, by rwa [Function.iterate_succ_apply]⟩

theorem ex_done (s : FlatState) :
    ∃ n, isEveryLeaf ((flattenStep^[n] s).queue) = true := by
  generalize hw : structW s.queue = W
  induction W using Nat.strong_induction_on generalizing s with
  | _ W ihW =>
    exact ex_done_aux (firstNT s.queue) s rfl
      (fun s' hs' => ihW (structW s'.queue) (hw ▸ hs') s' rfl)

/-! ### The flatten loop computes the direct bracketed chain -/

theorem flatE_append (xs ys : List QElem) :
    flatE (xs ++ ys) = flatE xs ++ flatE ys := by
  simp [flatE]

theorem flatE_cons (e : QElem) (xs : List QElem) :
    flatE (e :: xs) = eOf e ++ flatE xs := by
  simp [flatE]

theorem flatE_tnodes (ch : List TaskNode) :
    flatE (ch.map .tnode) = ch.flatMap chainOfE := by
  simp [flatE, List.flatMap_map]; rfl

theorem pool_append (xs ys : List QElem) :
    pool (xs ++ ys) = pool xs ++ pool ys := by
  simp [pool]

theorem pool_cons (e : QElem) (xs : List QElem) :
    pool (e :: xs) = poolOf e ++ pool xs := by
  simp [pool]

theorem pool_tnodes (ch : List TaskNode) :
    pool (ch.map .tnode) = (ch.flatMap TaskNode.allIds).map .tree := by
  simp [pool, List.flatMap_map, List.map_flatMap]
  rfl

theorem idOf_mem_allIds (t : TaskNode) : t.idOf ∈ t.allIds := by
  cases t with
  | leaf i n task => simp [TaskNode.allIds_leaf, TaskNode.idOf]
  | sequence i n ch st => simp [TaskNode.allIds_sequence, TaskNode.idOf]
  | parallel i n ch st => simp [TaskNode.allIds_parallel, TaskNode.idOf]

theorem qid_mem_poolOf (e : QElem) : e.qid ∈ poolOf e := by
  cases e with
  | tnode t =>
    simp only [QElem.qid, poolOf]
    exact List.mem_map_of_mem _ (idOf_mem_allIds t)
  | syn k n ch => simp [QElem.qid, poolOf]
  | marker k b st => simp [QElem.qid, poolOf]

theorem top_qids_nodup {q : List QElem} (h : (pool q).Nodup) :
    (q.map QElem.qid).Nodup := by
  induction q with
  | nil => simp
  | cons e rest ih =>
    rw [pool_cons, List.nodup_append] at h
    obtain ⟨h1, h2, h3⟩ := h
    refine List.nodup_cons.2 ⟨?_, ih h2⟩
    intro hmem
    obtain ⟨x, hx, hqx⟩ := List.mem_map.1 hmem
    have hx1 : e.qid ∈ poolOf e := qid_mem_poolOf e
    have hx2 : e.qid ∈ pool rest := by
      rw [← hqx]
      exact List.mem_flatMap.2 ⟨x, hx, qid_mem_poolOf x⟩
    exact h3 hx1 hx2

theorem isEveryLeaf_cons_false {e : QElem} (rest : List QElem)
    (he : e.isTerminal = false) : isEveryLeaf (e :: rest) = false := by
  simp [isEveryLeaf, List.all_cons, he]

theorem step_seq_none (i : Nat) (nm : String) (ch : List TaskNode)
    (rest : List QElem) (A : Option Ident) (K : Nat) :
    flattenStep ⟨.tnode (.sequence i nm ch none) :: rest, A, K⟩
      = ⟨rest ++ ch.map .tnode,
         if A = some (.tree i)
           then ch.head?.map (fun c => .tree c.idOf) else A,
         K⟩ := by
  have h := isEveryLeaf_cons_false (e := .tnode (.sequence i nm ch none)) rest rfl
  simp [flattenStep, h]

theorem step_seq_some (i : Nat) (nm : String) (ch : List TaskNode)
    (str : Strategy) (rest : List QElem) (A : Option Ident) (K : Nat) :
    flattenStep ⟨.tnode (.sequence i nm ch (some str)) :: rest, A, K⟩
      = ⟨rest ++ .marker K true str :: ch.map .tnode
              ++ [.marker (K + 1) false str],
         if A = some (.tree i) then some (.fresh K) else A,
         K + 2⟩ := by
  have h := isEveryLeaf_cons_false (e := .tnode (.sequence i nm ch (some str))) rest rfl
  simp [flattenStep, h]

theorem step_par_none (i : Nat) (nm : String) (ch : List TaskNode)
    (rest : List QElem) (A : Option Ident) (K : Nat) :
    flattenStep ⟨.tnode (.parallel i nm ch none) :: rest, A, K⟩
      = ⟨rest ++ [.syn K nm ch],
         if A = some (.tree i) then some (.fresh K) else A,
         K + 1⟩ := by
  have h := isEveryLeaf_cons_false (e := .tnode (.parallel i nm ch none)) rest rfl
  simp [flattenStep, h]

theorem step_par_some (i : Nat) (nm : String) (ch : List TaskNode)
    (str : Strategy) (rest : List QElem) (A : Option Ident) (K : Nat) :
    flattenStep ⟨.tnode (.parallel i nm ch (some str)) :: rest, A, K⟩
      = ⟨rest ++ .marker (K + 1) true str :: .syn K nm ch
              :: [.marker (K + 2) false str],
         if A = some (.tree i) then some (.fresh (K + 1)) else A,
         K + 3⟩ := by
  have h := isEveryLeaf_cons_false (e := .tnode (.parallel i nm ch (some str))) rest rfl
  simp [flattenStep, h]

theorem nodup_shift_term {e : QElem} {rest : List QElem}
    (h : (pool (e :: rest)).Nodup) : (pool (rest ++ [e])).Nodup := by
  have heq : pool (rest ++ [e]) = pool rest ++ poolOf e := by
    simp [pool_append, pool_cons, pool]
  have hperm : (pool (rest ++ [e])).Perm (pool (e :: rest)) := by
    rw [heq, pool_cons]
    exact List.perm_append_comm
  exact hperm.symm.nodup h

theorem mem_pool_shift {x : Ident} {e : QElem} {rest : List QElem} :
    x ∈ pool (rest ++ [e]) ↔ x ∈ pool (e :: rest) := by
  have heq : pool (rest ++ [e]) = pool rest ++ poolOf e := by
    simp [pool_append, pool_cons, pool]
  rw [heq, pool_cons]
  simp only [List.mem_append]
  tauto

theorem nodup_shift_expand {e : QElem} {rest X : List QElem}
    (hnodup : (pool (e :: rest)).Nodup)
    (hXnodup : (pool X).Nodup)
    (hXsub : ∀ x ∈ pool X, x ∈ poolOf e ∨ x ∉ pool (e :: rest)) :
    (pool (rest ++ X)).Nodup := by
  rw [pool_append, List.nodup_append]
  rw [pool_cons, List.nodup_append] at hnodup
  obtain ⟨h1, h2, h3⟩ := hnodup
  refine ⟨h2, hXnodup, ?_⟩
  intro x hxP hxX
  rcases hXsub x hxX with hin | hout
  · exact h3 hin hxP
  · exact hout (by rw [pool_cons, List.mem_append]; right; exact hxP)

theorem pool_X_seq_some (K : Nat) (str : Strategy) (ch : List TaskNode) :
    pool (.marker K true str :: (ch.map .tnode ++ [.marker (K + 1) false str]))
      = .fresh K :: ((ch.flatMap TaskNode.allIds).map .tree ++ [.fresh (K + 1)]) := by
  simp only [pool_append, pool_cons]
  rw [pool_tnodes]
  simp [pool, poolOf]

theorem pool_X_par_none (K : Nat) (nm : String) (ch : List TaskNode) :
    pool [.syn K nm ch] = [.fresh K] := by
  simp [pool, poolOf]

theorem pool_X_par_some (K : Nat) (nm : String) (str : Strategy)
    (ch : List TaskNode) :
    pool (.marker (K + 1) true str :: .syn K nm ch
        :: [.marker (K + 2) false str])
      = [.fresh (K + 1), .fresh K, .fresh (K + 2)] := by
  simp [pool, poolOf]

theorem flatE_X_seq_none (i : Nat) (nm : String) (ch : List TaskNode) :
    flatE (ch.map .tnode) = chainOfE (.sequence i nm ch none) := by
  rw [chainOfE_sequence, flatE_tnodes]; rfl

theorem flatE_X_seq_some (i K : Nat) (nm : String) (str : Strategy)
    (ch : List TaskNode) :
    flatE (.marker K true str :: (ch.map .tnode
        ++ [.marker (K + 1) false str]))
      = chainOfE (.sequence i nm ch (some str)) := by
  rw [chainOfE_sequence]
  simp only [flatE_append, flatE_cons]
  rw [flatE_tnodes]
  simp [flatE, eOf, wrapStrat]

theorem flatE_X_par_none (i K : Nat) (nm : String) (ch : List TaskNode) :
    flatE [.syn K nm ch] = chainOfE (.parallel i nm ch none) := by
  rw [chainOfE_parallel]
  simp [flatE, eOf, wrapStrat]

theorem flatE_X_par_some (i K : Nat) (nm : String) (str : Strategy)
    (ch : List TaskNode) :
    flatE (.marker (K + 1) true str :: .syn K nm ch
        :: [.marker (K + 2) false str])
      = chainOfE (.parallel i nm ch (some str)) := by
  rw [chainOfE_parallel]
  simp [flatE, eOf, wrapStrat]

theorem mem_shift {t : QElem} {e : QElem} {R : List QElem}
    (h : t ∈ R ++ [e]) : t ∈ e :: R := by
  rcases List.mem_append.1 h with h' | h'
  · exact List.mem_cons_of_mem _ h'
  · simp only [List.mem_singleton] at h'
    exact h' ▸ List.mem_cons_self _ _

theorem inv_step_terminal {C : List EItem} {e : QElem} {R : List QElem}
    {An : Option Ident} {K : Nat}
    (h : LoopInv C ⟨e :: R, An, K⟩) (ht : e.isTerminal = true) :
    LoopInv C ⟨R ++ [e], An, K⟩ := by
  obtain ⟨⟨A, eB, B, hq, hanchor, hflat⟩, hnodup, hbound, hseqs⟩ := h
  refine ⟨?_, nodup_shift_term hnodup,
    fun j hj => hbound j (mem_pool_shift.1 hj),
    fun t htm => hseqs t (mem_shift htm)⟩
  rcases A with _ | ⟨a, A'⟩
  · simp only [List.nil_append] at hq
    injection hq with he hR
    refine ⟨R, e, [], by simp, by rw [he]; exact hanchor, ?_⟩
    simp only [List.nil_append]
    rw [he, hR]
    simpa using hflat
  · simp only [List.cons_append] at hq
    injection hq with he hR
    refine ⟨A', eB, B ++ [e], ?_, hanchor, ?_⟩
    · rw [hR]; simp
    · have hl : (B ++ [e]) ++ A' = B ++ (a :: A') := by rw [he]; simp
      rw [hl]
      exact hflat

theorem poolOf_seq (i : Nat) (nm : String) (ch : List TaskNode)
    (st : Option Strategy) :
    poolOf (.tnode (.sequence i nm ch st))
      = .tree i :: (ch.flatMap TaskNode.allIds).map .tree := by
  simp [poolOf, TaskNode.allIds_sequence]

theorem poolOf_par (i : Nat) (nm : String) (ch : List TaskNode)
    (st : Option Strategy) :
    poolOf (.tnode (.parallel i nm ch st))
      = .tree i :: (ch.flatMap TaskNode.allIds).map .tree := by
  simp [poolOf, TaskNode.allIds_parallel]

theorem qid_front_not_anchor (front eB : QElem) (A' B : List QElem)
    (An : Option Ident)
    (hnodup : (pool (front :: (A' ++ eB :: B))).Nodup)
    (hanchor : some eB.qid = An) :
    ¬ An = some front.qid := by
  intro hAn
  have hqids := top_qids_nodup hnodup
  rw [List.map_cons, List.nodup_cons] at hqids
  apply hqids.1
  have heq : eB.qid = front.qid := by
    rw [hAn] at hanchor
    exact Option.some.inj hanchor
  rw [← heq]
  exact List.mem_map_of_mem _ (by simp)

theorem inv_step_seq_none {C : List EItem} {i : Nat} {nm : String}
    {ch : List TaskNode} {R : List QElem} {An : Option Ident} {K : Nat}
    (h : LoopInv C ⟨.tnode (.sequence i nm ch none) :: R, An, K⟩) :
    LoopInv C ⟨R ++ ch.map .tnode,
      if An = some (.tree i)
        then ch.head?.map (fun c => .tree c.idOf) else An,
      K⟩ := by
  obtain ⟨⟨A, eB, B, hq, hanchor, hflat⟩, hnodup, hbound, hseqs⟩ := h
  dsimp only at hq hanchor hnodup hbound hseqs
  have hseqfront : TaskNode.seqsOK (.sequence i nm ch none) = true :=
    hseqs _ (List.mem_cons_self _ _)
  rw [TaskNode.seqsOK_sequence, Bool.and_eq_true] at hseqfront
  have hchall := hseqfront.2
  have hXpool : pool (ch.map .tnode)
      = (ch.flatMap TaskNode.allIds).map .tree := pool_tnodes ch
  have hfrontpool : (poolOf (.tnode (.sequence i nm ch none))).Nodup := by
    rw [pool_cons, List.nodup_append] at hnodup
    exact hnodup.1
  have hXnodup : (pool (ch.map .tnode)).Nodup := by
    rw [hXpool]
    rw [poolOf_seq, List.nodup_cons] at hfrontpool
    exact hfrontpool.2
  have hXsub : ∀ x ∈ pool (ch.map .tnode),
      x ∈ poolOf (.tnode (.sequence i nm ch none))
        ∨ x ∉ pool (.tnode (.sequence i nm ch none) :: R) := by
    intro x hx
    left
    rw [poolOf_seq]
    rw [hXpool] at hx
    exact List.mem_cons_of_mem _ hx
  have hnodup' := nodup_shift_expand hnodup hXnodup hXsub
  have hbound' : ∀ j, Ident.fresh j ∈ pool (R ++ ch.map .tnode) → j < K := by
    intro j hj
    rw [pool_append, List.mem_append] at hj
    rcases hj with hj | hj
    · exact hbound j (by rw [pool_cons, List.mem_append]; right; exact hj)
    · rw [hXpool] at hj
      obtain ⟨a, _, ha⟩ := List.mem_map.1 hj
      cases ha
  have hseqs' : ∀ t, QElem.tnode t ∈ R ++ ch.map .tnode →
      TaskNode.seqsOK t = true := by
    intro t htm
    rcases List.mem_append.1 htm with htm | htm
    · exact hseqs t (List.mem_cons_of_mem _ htm)
    · obtain ⟨c, hc, hc2⟩ := List.mem_map.1 htm
      cases hc2
      exact List.all_eq_true.1 hchall _ hc
  refine ⟨?_, hnodup', hbound', hseqs'⟩
  rcases A with _ | ⟨a, A'⟩
  · simp only [List.nil_append] at hq
    injection hq with he hR
    have hAn : An = some (.tree i) := by
      rw [← hanchor, ← he]
      rfl
    rw [if_pos hAn]
    rcases hch : ch with _ | ⟨c0, ch'⟩
    · rw [hch] at hseqfront
      simp at hseqfront
    refine ⟨R, .tnode c0, ch'.map .tnode, by simp, by simp [QElem.qid], ?_⟩
    have hC : C = flatE (.tnode (.sequence i nm ch none) :: R) := by
      rw [← hflat, he, hR]
      simp [flatE_cons, flatE_append, flatE]
    rw [hC, hch]
    simp [flatE_cons, flatE_append, flatE_tnodes, eOf, chainOfE_sequence,
      wrapStrat, List.append_assoc, List.flatMap_cons]
  · simp only [List.cons_append] at hq
    injection hq with he hR
    have hne : ¬ An = some (.tree i) := by
      have := qid_front_not_anchor (.tnode (.sequence i nm ch none))
        eB A' B An ?_ hanchor
      · exact this
      · rw [← hR]; exact hnodup
    rw [if_neg hne]
    refine ⟨A', eB, B ++ ch.map .tnode, by rw [hR]; simp, hanchor, ?_⟩
    rw [← hflat, ← he]
    simp [flatE_cons, flatE_append, flatE_tnodes, eOf, chainOfE_sequence,
      wrapStrat, List.append_assoc]

theorem inv_step_seq_some {C : List EItem} {i : Nat} {nm : String}
    {ch : List TaskNode} {str : Strategy} {R : List QElem}
    {An : Option Ident} {K : Nat}
    (h : LoopInv C ⟨.tnode (.sequence i nm ch (some str)) :: R, An, K⟩) :
    LoopInv C ⟨R ++ .marker K true str :: ch.map .tnode
        ++ [.marker (K + 1) false str],
      if An = some (.tree i) then some (.fresh K) else An,
      K + 2⟩ := by
  have hassoc : R ++ .marker K true str :: ch.map .tnode
        ++ [.marker (K + 1) false str]
      = R ++ (.marker K true str
          :: (ch.map .tnode ++ [.marker (K + 1) false str])) := by
    simp
  rw [hassoc]
  obtain ⟨⟨A, eB, B, hq, hanchor, hflat⟩, hnodup, hbound, hseqs⟩ := h
  dsimp only at hq hanchor hnodup hbound hseqs
  have hseqfront : TaskNode.seqsOK (.sequence i nm ch (some str)) = true :=
    hseqs _ (List.mem_cons_self _ _)
  rw [TaskNode.seqsOK_sequence, Bool.and_eq_true] at hseqfront
  have hchall := hseqfront.2
  have hXpool := pool_X_seq_some K str ch
  have hfrontpool : (poolOf (.tnode (.sequence i nm ch (some str)))).Nodup := by
    rw [pool_cons, List.nodup_append] at hnodup
    exact hnodup.1
  rw [poolOf_seq, List.nodup_cons] at hfrontpool
  have htreenodup := hfrontpool.2
  have hnofreshK : Ident.fresh K ∉
      pool (.tnode (.sequence i nm ch (some str)) :: R) := by
    intro hm
    exact absurd (hbound K hm) (by omega)
  have hnofreshK1 : Ident.fresh (K + 1) ∉
      pool (.tnode (.sequence i nm ch (some str)) :: R) := by
    intro hm
    exact absurd (hbound (K + 1) hm) (by omega)
  have hXnodup : (pool (.marker K true str :: (ch.map .tnode
      ++ [.marker (K + 1) false str]))).Nodup := by
    rw [hXpool, List.nodup_cons, List.nodup_append]
    refine ⟨?_, htreenodup, by simp, ?_⟩
    · intro hm
      rcases List.mem_append.1 hm with hm | hm
      · obtain ⟨a, _, ha⟩ := List.mem_map.1 hm; cases ha
      · simp at hm
    · intro x hx hy
      obtain ⟨a, _, ha⟩ := List.mem_map.1 hx
      simp only [List.mem_singleton] at hy
      rw [hy] at ha
      cases ha
  have hXsub : ∀ x ∈ pool (.marker K true str :: (ch.map .tnode
      ++ [.marker (K + 1) false str])),
      x ∈ poolOf (.tnode (.sequence i nm ch (some str)))
        ∨ x ∉ pool (.tnode (.sequence i nm ch (some str)) :: R) := by
    intro x hx
    rw [hXpool] at hx
    rcases List.mem_cons.1 hx with hx | hx
    · right; rw [hx]; exact hnofreshK
    rcases List.mem_append.1 hx with hx | hx
    · left; rw [poolOf_seq]; exact List.mem_cons_of_mem _ hx
    · right
      simp only [List.mem_singleton] at hx
      rw [hx]; exact hnofreshK1
  have hnodup' := nodup_shift_expand hnodup hXnodup hXsub
  have hbound' : ∀ j, Ident.fresh j ∈ pool (R ++ (.marker K true str
      :: (ch.map .tnode ++ [.marker (K + 1) false str]))) → j < K + 2 := by
    intro j hj
    rw [pool_append, List.mem_append] at hj
    rcases hj with hj | hj
    · have := hbound j (by rw [pool_cons, List.mem_append]; right; exact hj)
      omega
    · rw [hXpool] at hj
      rcases List.mem_cons.1 hj with hj | hj
      · injection hj with hj'; omega
      rcases List.mem_append.1 hj with hj | hj
      · obtain ⟨a, _, ha⟩ := List.mem_map.1 hj; cases ha
      · simp only [List.mem_singleton] at hj
        injection hj with hj'; omega
  have hseqs' : ∀ t, QElem.tnode t ∈ R ++ (.marker K true str
      :: (ch.map .tnode ++ [.marker (K + 1) false str])) →
      TaskNode.seqsOK t = true := by
    intro t htm
    rcases List.mem_append.1 htm with htm | htm
    · exact hseqs t (List.mem_cons_of_mem _ htm)
    rcases List.mem_cons.1 htm with htm | htm
    · cases htm
    rcases List.mem_append.1 htm with htm | htm
    · obtain ⟨c, hc, hc2⟩ := List.mem_map.1 htm
      cases hc2
      exact List.all_eq_true.1 hchall _ hc
    · simp at htm
  refine ⟨?_, hnodup', hbound', hseqs'⟩
  rcases A with _ | ⟨a, A'⟩
  · simp only [List.nil_append] at hq
    injection hq with he hR
    have hAn : An = some (.tree i) := by
      rw [← hanchor, ← he]
      rfl
    rw [if_pos hAn]
    refine ⟨R, .marker K true str,
      ch.map .tnode ++ [.marker (K + 1) false str], by simp, rfl, ?_⟩
    have hC : C = flatE (.tnode (.sequence i nm ch (some str)) :: R) := by
      rw [← hflat, he, hR]
      simp [flatE_cons, flatE_append, flatE]
    rw [hC]
    simp [flatE_cons, flatE_append, flatE_tnodes, eOf, chainOfE_sequence,
      wrapStrat, List.append_assoc]
  · simp only [List.cons_append] at hq
    injection hq with he hR
    have hne : ¬ An = some (.tree i) := by
      have := qid_front_not_anchor
        (.tnode (.sequence i nm ch (some str)))
        eB A' B An ?_ hanchor
      · exact this
      · rw [← hR]; exact hnodup
    rw [if_neg hne]
    refine ⟨A', eB, B ++ (.marker K true str :: (ch.map .tnode
      ++ [.marker (K + 1) false str])), by rw [hR]; simp, hanchor, ?_⟩
    rw [← hflat, ← he]
    simp [flatE_cons, flatE_append, flatE_tnodes, eOf, chainOfE_sequence,
      wrapStrat, List.append_assoc]

theorem inv_step_par_none {C : List EItem} {i : Nat} {pnm : String}
    {ch : List TaskNode} {R : List QElem} {An : Option Ident} {K : Nat}
    (h : LoopInv C ⟨.tnode (.parallel i pnm ch none) :: R, An, K⟩) :
    LoopInv C ⟨R ++ [.syn K pnm ch],
      if An = some (.tree i) then some (.fresh K) else An,
      K + 1⟩ := by
  obtain ⟨⟨A, eB, B, hq, hanchor, hflat⟩, hnodup, hbound, hseqs⟩ := h
  dsimp only at hq hanchor hnodup hbound hseqs
  have hnofreshK : Ident.fresh K ∉
      pool (.tnode (.parallel i pnm ch none) :: R) := by
    intro hm
    exact absurd (hbound K hm) (by omega)
  have hXnodup : (pool [QElem.syn K pnm ch]).Nodup := by
    rw [pool_X_par_none]; simp
  have hXsub : ∀ x ∈ pool [QElem.syn K pnm ch],
      x ∈ poolOf (.tnode (.parallel i pnm ch none))
        ∨ x ∉ pool (.tnode (.parallel i pnm ch none) :: R) := by
    intro x hx
    rw [pool_X_par_none, List.mem_singleton] at hx
    right; rw [hx]; exact hnofreshK
  have hnodup' := nodup_shift_expand hnodup hXnodup hXsub
  have hbound' : ∀ j, Ident.fresh j ∈ pool (R ++ [QElem.syn K pnm ch]) →
      j < K + 1 := by
    intro j hj
    rw [pool_append, List.mem_append] at hj
    rcases hj with hj | hj
    · have := hbound j (by rw [pool_cons, List.mem_append]; right; exact hj)
      omega
    · rw [pool_X_par_none, List.mem_singleton] at hj
      injection hj with hj'; omega
  have hseqs' : ∀ t, QElem.tnode t ∈ R ++ [QElem.syn K pnm ch] →
      TaskNode.seqsOK t = true := by
    intro t htm
    rcases List.mem_append.1 htm with htm | htm
    · exact hseqs t (List.mem_cons_of_mem _ htm)
    · simp at htm
  refine ⟨?_, hnodup', hbound', hseqs'⟩
  rcases A with _ | ⟨a, A'⟩
  · simp only [List.nil_append] at hq
    injection hq with he hR
    have hAn : An = some (.tree i) := by
      rw [← hanchor, ← he]
      rfl
    rw [if_pos hAn]
    refine ⟨R, .syn K pnm ch, [], by simp, rfl, ?_⟩
    have hC : C = flatE (.tnode (.parallel i pnm ch none) :: R) := by
      rw [← hflat, he, hR]
      simp [flatE_cons, flatE_append, flatE]
    rw [hC]
    simp [flatE_cons, flatE_append, eOf, chainOfE_parallel, wrapStrat]
  · simp only [List.cons_append] at hq
    injection hq with he hR
    have hne : ¬ An = some (.tree i) := by
      have := qid_front_not_anchor
        (.tnode (.parallel i pnm ch none))
        eB A' B An ?_ hanchor
      · exact this
      · rw [← hR]; exact hnodup
    rw [if_neg hne]
    refine ⟨A', eB, B ++ [.syn K pnm ch], by rw [hR]; simp, hanchor, ?_⟩
    rw [← hflat, ← he]
    simp [flatE_cons, flatE_append, eOf, chainOfE_parallel, wrapStrat,
      List.append_assoc]

theorem inv_step_par_some {C : List EItem} {i : Nat} {pnm : String}
    {ch : List TaskNode} {str : Strategy} {R : List QElem}
    {An : Option Ident} {K : Nat}
    (h : LoopInv C ⟨.tnode (.parallel i pnm ch (some str)) :: R, An, K⟩) :
    LoopInv C ⟨R ++ .marker (K + 1) true str :: .syn K pnm ch
        :: [.marker (K + 2) false str],
      if An = some (.tree i) then some (.fresh (K + 1)) else An,
      K + 3⟩ := by
  obtain ⟨⟨A, eB, B, hq, hanchor, hflat⟩, hnodup, hbound, hseqs⟩ := h
  dsimp only at hq hanchor hnodup hbound hseqs
  have hnofresh : ∀ j, K ≤ j → Ident.fresh j ∉
      pool (.tnode (.parallel i pnm ch (some str)) :: R) := by
    intro j hk hm
    exact absurd (hbound j hm) (by omega)
  have hXnodup : (pool (.marker (K + 1) true str :: .syn K pnm ch
      :: [.marker (K + 2) false str])).Nodup := by
    rw [pool_X_par_some]; simp
  have hXsub : ∀ x ∈ pool (.marker (K + 1) true str :: .syn K pnm ch
      :: [.marker (K + 2) false str]),
      x ∈ poolOf (.tnode (.parallel i pnm ch (some str)))
        ∨ x ∉ pool (.tnode (.parallel i pnm ch (some str)) :: R) := by
    intro x hx
    rw [pool_X_par_some] at hx
    right
    rcases List.mem_cons.1 hx with hx | hx
    · rw [hx]; exact hnofresh (K + 1) (by omega)
    rcases List.mem_cons.1 hx with hx | hx
    · rw [hx]; exact hnofresh K (by omega)
    · simp only [List.mem_singleton] at hx
      rw [hx]; exact hnofresh (K + 2) (by omega)
  have hnodup' := nodup_shift_expand hnodup hXnodup hXsub
  have hbound' : ∀ j, Ident.fresh j ∈ pool (R ++ .marker (K + 1) true str
      :: .syn K pnm ch :: [.marker (K + 2) false str]) → j < K + 3 := by
    intro j hj
    rw [pool_append, List.mem_append] at hj
    rcases hj with hj | hj
    · have := hbound j (by rw [pool_cons, List.mem_append]; right; exact hj)
      omega
    · rw [pool_X_par_some] at hj
      rcases List.mem_cons.1 hj with hj | hj
      · injection hj with hj'; omega
      rcases List.mem_cons.1 hj with hj | hj
      · injection hj with hj'; omega
      · simp only [List.mem_singleton] at hj
        injection hj with hj'; omega
  have hseqs' : ∀ t, QElem.tnode t ∈ R ++ .marker (K + 1) true str
      :: .syn K pnm ch :: [.marker (K + 2) false str] →
      TaskNode.seqsOK t = true := by
    intro t htm
    rcases List.mem_append.1 htm with htm | htm
    · exact hseqs t (List.mem_cons_of_mem _ htm)
    · simp at htm
  refine ⟨?_, hnodup', hbound', hseqs'⟩
  rcases A with _ | ⟨a, A'⟩
  · simp only [List.nil_append] at hq
    injection hq with he hR
    have hAn : An = some (.tree i) := by
      rw [← hanchor, ← he]
      rfl
    rw [if_pos hAn]
    refine ⟨R, .marker (K + 1) true str,
      .syn K pnm ch :: [.marker (K + 2) false str], by simp, rfl, ?_⟩
    have hC : C = flatE (.tnode (.parallel i pnm ch (some str)) :: R) := by
      rw [← hflat, he, hR]
      simp [flatE_cons, flatE_append, flatE]
    rw [hC]
    simp [flatE_cons, flatE_append, eOf, chainOfE_parallel, wrapStrat,
      List.append_assoc]
  · simp only [List.cons_append] at hq
    injection hq with he hR
    have hne : ¬ An = some (.tree i) := by
      have := qid_front_not_anchor
        (.tnode (.parallel i pnm ch (some str)))
        eB A' B An ?_ hanchor
      · exact this
      · rw [← hR]; exact hnodup
    rw [if_neg hne]
    refine ⟨A', eB, B ++ (.marker (K + 1) true str :: .syn K pnm ch
      :: [.marker (K + 2) false str]), by rw [hR]; simp, hanchor, ?_⟩
    rw [← hflat, ← he]
    simp [flatE_cons, flatE_append, eOf, chainOfE_parallel, wrapStrat,
      List.append_assoc]

theorem inv_step {C : List EItem} {s : FlatState} (h : LoopInv C s) :
    LoopInv C (flattenStep s) := by
  by_cases hd : isEveryLeaf s.queue = true
  · rwa [step_of_done hd]
  have hd' : isEveryLeaf s.queue = false := by simpa using hd
  obtain ⟨Q, An, K⟩ := s
  dsimp only at hd'
  rcases hq : Q with _ | ⟨front, R⟩
  · rw [hq] at hd'; simp [isEveryLeaf] at hd'
  subst hq
  cases front with
  | tnode t =>
    cases t with
    | leaf i n task =>
      rw [step_of_not_done hd' rfl]
      exact inv_step_terminal h rfl
    | sequence i nm ch st =>
      cases st with
      | none => rw [step_seq_none]; exact inv_step_seq_none h
      | some str => rw [step_seq_some]; exact inv_step_seq_some h
    | parallel i nm ch st =>
      cases st with
      | none => rw [step_par_none]; exact inv_step_par_none h
      | some str => rw [step_par_some]; exact inv_step_par_some h
  | syn k n ch =>
    rw [step_of_not_done hd' rfl]
    exact inv_step_terminal h rfl
  | marker k b st =>
    rw [step_of_not_done hd' rfl]
    exact inv_step_terminal h rfl

theorem inv_iterate {C : List EItem} {s : FlatState} (h : LoopInv C s)
    (n : Nat) : LoopInv C (flattenStep^[n] s) := by
  induction n with
  | zero => exact h
  | succ n ih => rw [Function.iterate_succ_apply']; exact inv_step ih

theorem inv_init (t : TaskNode) (hids : t.allIds.Nodup)
    (hseq : t.seqsOK = true) : LoopInv (chainOfE t) (initState t) := by
  have hpool : pool (initState t).queue = t.allIds.map .tree := by
    simp [initState, pool, poolOf]
  refine ⟨⟨[], .tnode t, [], rfl, rfl, by simp [flatE, eOf]⟩, ?_, ?_, ?_⟩
  · rw [hpool]
    exact hids.map (fun a b hab => Ident.tree.inj hab)
  · intro j hj
    rw [hpool] at hj
    obtain ⟨a, _, ha⟩ := List.mem_map.1 hj
    cases ha
  · intro t' ht'
    simp only [initState, List.mem_singleton] at ht'
    injection ht' with ht''
    rw [ht'']
    exact hseq

theorem eOf_terminal {e : QElem} (ht : e.isTerminal = true) :
    eOf e = [erase e] := by
  cases e with
  | tnode t =>
    cases t with
    | leaf i n task => simp [eOf, erase, chainOfE_leaf]
    | sequence i n ch st => simp [QElem.isTerminal] at ht
    | parallel i n ch st => simp [QElem.isTerminal] at ht
  | syn k n ch => rfl
  | marker k b st => rfl

theorem flatE_of_terminal {q : List QElem}
    (h : ∀ e ∈ q, e.isTerminal = true) : flatE q = q.map erase := by
  induction q with
  | nil => rfl
  | cons e rest ih =>
    rw [flatE_cons, eOf_terminal (h e (List.mem_cons_self _ _)),
      List.map_cons, ih (fun x hx => h x (List.mem_cons_of_mem _ hx))]
    rfl

theorem findIdx?_split {p : QElem → Bool} {A B : List QElem} {eB : QElem}
    (hA : ∀ x ∈ A, p x = false) (heB : p eB = true) :
    ∀ i, (A ++ eB :: B).findIdx? p i = some (A.length + i) := by
  induction A with
  | nil => intro i; simp [List.findIdx?_cons, heB]
  | cons a A ih =>
    intro i
    have ha : p a = false := hA a (List.mem_cons_self _ _)
    rw [List.cons_append, List.findIdx?_cons]
    simp only [ha]
    rw [ih (fun x hx => hA x (List.mem_cons_of_mem _ hx)) (i + 1)]
    simp
    omega

theorem align_of_inv {C : List EItem} {s : FlatState} (hInv : LoopInv C s)
    (hdone : isEveryLeaf s.queue = true) :
    ∃ q, align s.queue s.anchor = some q ∧ q.map erase = C := by
  obtain ⟨⟨A, eB, B, hq, hanchor, hflat⟩, hnodup, _, _⟩ := hInv
  have hterm : ∀ e ∈ s.queue, QElem.isTerminal e = true :=
    fun e he => List.all_eq_true.1 hdone e he
  have hqids := top_qids_nodup hnodup
  have hA : ∀ x ∈ A, (fun e => decide (some e.qid = s.anchor)) x = false := by
    intro x hx
    simp only [decide_eq_false_iff_not]
    intro hxa
    have hx1 : x.qid ∈ (A.map QElem.qid) := List.mem_map_of_mem _ hx
    have hx2 : eB.qid ∈ ((eB :: B).map QElem.qid) := by simp
    rw [hq, List.map_append, List.nodup_append] at hqids
    have hxy : x.qid = eB.qid := Option.some.inj (hxa.trans hanchor.symm)
    have hx2' : x.qid ∈ ((eB :: B).map QElem.qid) := by rw [hxy]; exact hx2
    exact hqids.2.2 hx1 hx2'
  have heB : (fun e => decide (some e.qid = s.anchor)) eB = true := by
    simp only [decide_eq_true_eq]
    exact hanchor
  have hfind : s.queue.findIdx? (fun e => decide (some e.qid = s.anchor)) 0
      = some A.length := by
    rw [hq, findIdx?_split hA heB 0]
    simp
  refine ⟨eB :: B ++ A, ?_, ?_⟩
  · have halign : align s.queue s.anchor
        = some (s.queue.drop A.length ++ s.queue.take A.length) := by
      simp only [align]
      rw [hfind]
    rw [halign]
    simp only [Option.some.injEq]
    rw [hq]
    have h1 : List.drop A.length (A ++ eB :: B) = eB :: B := List.drop_left A _
    have h2 : List.take A.length (A ++ eB :: B) = A := List.take_left A _
    rw [h1, h2]
  · rw [← hflat]
    have : ∀ e ∈ eB :: B ++ A, QElem.isTerminal e = true := by
      intro e he
      apply hterm
      rw [hq]
      rcases List.mem_cons.1 he with he | he
      · rw [he]; simp
      · rcases List.mem_append.1 he with he | he
        · simp [List.mem_append, he]
        · simp [List.mem_append, he]
    rw [← flatE_of_terminal this]
    have : eB :: B ++ A = eB :: (B ++ A) := by simp
    rw [this]

theorem flatten_char (t : TaskNode) (hids : t.allIds.Nodup)
    (hseq : t.seqsOK = true) {n : Nat}
    (hdone : isEveryLeaf ((flattenStep^[n] (initState t)).queue) = true) :
    ∃ q, flattenAt n t = some q ∧ q.map erase = chainOfE t := by
  have hInv := inv_iterate (inv_init t hids hseq) n
  obtain ⟨q, hq1, hq2⟩ := align_of_inv hInv hdone
  refine ⟨q, ?_, hq2⟩
  rw [flattenAt]
  simp only [hdone, if_true]
  exact hq1

/-! ### Execution of a strategy-free chain is the pure denotation -/

theorem except_bind_ok (r : Res) : r.bind Except.ok = r := by
  cases r <;> rfl

theorem except_ok_bind (v : V) (f : V → Res) :
    (Except.ok v : Res).bind f = f v := rfl

theorem except_error_bind (e : String) (f : V → Res) :
    (Except.error e : Res).bind f = .error e := rfl

theorem except_bind_assoc (r : Res) (f g : V → Res) :
    (r.bind f).bind g = r.bind (fun v => (f v).bind g) := by
  cases r <;> rfl

theorem except_bind_congr {r : Res} {f g : V → Res}
    (h : ∀ v, f v = g v) : r.bind f = r.bind g := by
  cases r with
  | error e => rfl
  | ok v => simp only [except_ok_bind, h]

theorem synKids_sequence (i : Nat) (n : String) (ch : List TaskNode)
    (st : Option Strategy) :
    synKids (.sequence i n ch st) = ch.flatMap synKids := by
  rw [synKids, attach_flatMap_eq]

theorem synKids_parallel (i : Nat) (n : String) (ch : List TaskNode)
    (st : Option Strategy) :
    synKids (.parallel i n ch st) = ch := by
  rw [synKids]

theorem execSteps_append (cr : TaskNode → V → Res) (xs ys : List EItem) :
    ∀ (st : List Strategy) (r : Res),
    execSteps cr (xs ++ ys) st r
      = execSteps cr ys (execSteps cr xs st r).1 (execSteps cr xs st r).2 := by
  induction xs with
  | nil => intro st r; rfl
  | cons x xs ih =>
    intro st r
    cases x with
    | markerE b s =>
      cases b
      · simp only [List.cons_append, execSteps]; exact ih _ _
      · simp only [List.cons_append, execSteps]; exact ih _ _
    | leafE i n task =>
      simp only [List.cons_append, execSteps]; exact ih _ _
    | synE n ch =>
      simp only [List.cons_append, execSteps]; exact ih _ _

theorem foldl_bind_shift (ch : List TaskNode) :
    ∀ r : Res,
    r.bind (fun v => ch.foldl (fun acc c => acc.bind (denote c)) (.ok v))
      = ch.foldl (fun acc c => acc.bind (denote c)) r := by
  induction ch with
  | nil =>
    intro r
    simp only [List.foldl_nil]
    exact except_bind_ok r
  | cons c ch ih =>
    intro r
    simp only [List.foldl_cons]
    calc r.bind (fun v => ch.foldl (fun acc c => acc.bind (denote c))
            ((Except.ok v).bind (denote c)))
        = r.bind (fun v => (denote c v).bind
            (fun w => ch.foldl (fun acc c => acc.bind (denote c))
              (.ok w))) := by
          refine except_bind_congr (fun v => ?_)
          rw [ih (denote c v)]
          rfl
      _ = (r.bind (denote c)).bind
            (fun w => ch.foldl (fun acc c => acc.bind (denote c))
              (.ok w)) := (except_bind_assoc _ _ _).symm
      _ = ch.foldl (fun acc c => acc.bind (denote c)) (r.bind (denote c)) :=
          ih _

theorem exec_chain_seq (cr : TaskNode → V → Res) :
    ∀ (ch : List TaskNode),
    (∀ c ∈ ch, ∀ (rest : List EItem) (r : Res),
      execSteps cr (chainOfE c ++ rest) [] r
        = execSteps cr rest [] (r.bind (denote c))) →
    ∀ (rest : List EItem) (r : Res),
      execSteps cr (ch.flatMap chainOfE ++ rest) [] r
        = execSteps cr rest []
            (ch.foldl (fun acc c => acc.bind (denote c)) r) := by
  intro ch
  induction ch with
  | nil =>
    intro _ rest r
    simp only [List.flatMap_nil, List.nil_append, List.foldl_nil]
  | cons c ch ih =>
    intro hall rest r
    rw [List.flatMap_cons, List.append_assoc,
      hall c (List.mem_cons_self _ _) _ r,
      ih (fun c' hc' => hall c' (List.mem_cons_of_mem _ hc'))]
    rfl

theorem exec_noStrat (cr : TaskNode → V → Res) :
    ∀ t : TaskNode, t.noStrat = true →
    (∀ c ∈ synKids t, ∀ v, cr c v = denote c v) →
    ∀ (rest : List EItem) (r : Res),
      execSteps cr (chainOfE t ++ rest) [] r
        = execSteps cr rest [] (r.bind (denote t)) := by
  intro t
  induction t using TaskNode.my_ind with
  | hleaf i n task =>
    intro _ _ rest r
    rw [chainOfE_leaf]
    simp only [List.cons_append, List.nil_append, execSteps, applyLeaf]
    congr 1
    exact except_bind_congr (fun v => (denote_leaf i n task v).symm)
  | hseq i n ch st ih =>
    intro hns hcr rest r
    rw [TaskNode.noStrat_sequence, Bool.and_eq_true] at hns
    have hstn : st = none := by
      cases st
      · rfl
      · simp [Option.isNone] at hns
    subst hstn
    rw [chainOfE_sequence]
    have hall : ∀ c ∈ ch, ∀ (rest' : List EItem) (r' : Res),
        execSteps cr (chainOfE c ++ rest') [] r'
          = execSteps cr rest' [] (r'.bind (denote c)) := by
      intro c hc
      refine ih c hc (List.all_eq_true.1 hns.2 c hc) ?_
      intro c' hc' v
      refine hcr c' ?_ v
      rw [synKids_sequence]
      exact List.mem_flatMap.2 ⟨c, hc, hc'⟩
    rw [show wrapStrat none (ch.flatMap chainOfE) = ch.flatMap chainOfE
      from rfl]
    rw [exec_chain_seq cr ch hall rest r]
    congr 1
    rw [← foldl_bind_shift]
    exact except_bind_congr (fun v => (denote_sequence i n ch none v).symm)
  | hpar i n ch st ih =>
    intro hns hcr rest r
    rw [TaskNode.noStrat_parallel, Bool.and_eq_true] at hns
    have hstn : st = none := by
      cases st
      · rfl
      · simp [Option.isNone] at hns
    subst hstn
    rw [chainOfE_parallel]
    rw [show wrapStrat none [EItem.synE n ch] = [EItem.synE n ch] from rfl]
    simp only [List.cons_append, List.nil_append, execSteps, applyLeaf]
    congr 1
    refine except_bind_congr (fun v => ?_)
    rw [denote_parallel, synTask]
    have hmaps : ch.map (fun c => cr c v) = ch.map (fun c => denote c v) :=
      List.map_congr_left
        (fun c hc => hcr c (by rw [synKids_parallel]; exact hc) v)
    rw [hmaps]
    congr 1
    funext rs
    rw [innerZip_eq_zip]

theorem sublist_flatMap_of_mem {α β : Type} {l : List α} {c : α}
    (f : α → List β) (h : c ∈ l) : (f c).Sublist (l.flatMap f) := by
  induction l with
  | nil => cases h
  | cons a l ih =>
    rw [List.flatMap_cons]
    rcases List.mem_cons.1 h with h' | h'
    · rw [h']
      exact List.sublist_append_left _ _
    · exact (ih h').trans (List.sublist_append_right _ _)

theorem mem_synKids_sizeOf {c t : TaskNode} (h : c ∈ synKids t) :
    sizeOf c < sizeOf t := by
  induction t using TaskNode.my_ind with
  | hleaf i n task => rw [synKids] at h; cases h
  | hseq i n ch st ih =>
    rw [synKids_sequence] at h
    obtain ⟨c', hc', hcc⟩ := List.mem_flatMap.1 h
    have h1 := ih c' hc' hcc
    have h2 := List.sizeOf_lt_of_mem hc'
    simp only [TaskNode.sequence.sizeOf_spec]
    omega
  | hpar i n ch st ih =>
    rw [synKids_parallel] at h
    have := List.sizeOf_lt_of_mem h
    simp only [TaskNode.parallel.sizeOf_spec]
    omega

theorem mem_synKids_noStrat {c t : TaskNode} (hns : t.noStrat = true)
    (h : c ∈ synKids t) : c.noStrat = true := by
  induction t using TaskNode.my_ind with
  | hleaf i n task => rw [synKids] at h; cases h
  | hseq i n ch st ih =>
    rw [synKids_sequence] at h
    obtain ⟨c', hc', hcc⟩ := List.mem_flatMap.1 h
    rw [TaskNode.noStrat_sequence, Bool.and_eq_true] at hns
    exact ih c' hc' (List.all_eq_true.1 hns.2 c' hc') hcc
  | hpar i n ch st ih =>
    rw [synKids_parallel] at h
    rw [TaskNode.noStrat_parallel, Bool.and_eq_true] at hns
    exact List.all_eq_true.1 hns.2 c h

theorem mem_synKids_seqsOK {c t : TaskNode} (hsq : t.seqsOK = true)
    (h : c ∈ synKids t) : c.seqsOK = true := by
  induction t using TaskNode.my_ind with
  | hleaf i n task => rw [synKids] at h; cases h
  | hseq i n ch st ih =>
    rw [synKids_sequence] at h
    obtain ⟨c', hc', hcc⟩ := List.mem_flatMap.1 h
    rw [TaskNode.seqsOK_sequence, Bool.and_eq_true] at hsq
    exact ih c' hc' (List.all_eq_true.1 hsq.2 c' hc') hcc
  | hpar i n ch st ih =>
    rw [synKids_parallel] at h
    rw [TaskNode.seqsOK_parallel] at hsq
    exact List.all_eq_true.1 hsq c h

theorem mem_synKids_sublist {c t : TaskNode} (h : c ∈ synKids t) :
    (TaskNode.allIds c).Sublist (TaskNode.allIds t) := by
  induction t using TaskNode.my_ind with
  | hleaf i n task => rw [synKids] at h; cases h
  | hseq i n ch st ih =>
    rw [synKids_sequence] at h
    obtain ⟨c', hc', hcc⟩ := List.mem_flatMap.1 h
    rw [TaskNode.allIds_sequence]
    exact ((ih c' hc' hcc).trans
      (sublist_flatMap_of_mem TaskNode.allIds hc')).cons _
  | hpar i n ch st ih =>
    rw [synKids_parallel] at h
    rw [TaskNode.allIds_parallel]
    exact (sublist_flatMap_of_mem TaskNode.allIds h).cons _

theorem mem_synKids_nodup {c t : TaskNode}
    (hids : (TaskNode.allIds t).Nodup) (h : c ∈ synKids t) :
    (TaskNode.allIds c).Nodup :=
  hids.sublist (mem_synKids_sublist h)

theorem uniform_bound (P : TaskNode → Nat → Prop)
    (mono : ∀ c N N', N ≤ N' → P c N → P c N') :
    ∀ (l : List TaskNode), (∀ c ∈ l, ∃ N, P c N) →
      ∃ N, ∀ c ∈ l, P c N := by
  intro l
  induction l with
  | nil => intro _; exact ⟨0, fun c hc => absurd hc (List.not_mem_nil c)⟩
  | cons a l ih =>
    intro hall
    obtain ⟨Na, hNa⟩ := hall a (List.mem_cons_self _ _)
    obtain ⟨Nl, hNl⟩ := ih (fun c hc => hall c (List.mem_cons_of_mem _ hc))
    refine ⟨max Na Nl, fun c hc => ?_⟩
    rcases List.mem_cons.1 hc with hc' | hc'
    · exact hc' ▸ mono a Na _ (Nat.le_max_left _ _) hNa
    · exact mono c Nl _ (Nat.le_max_right _ _) (hNl c hc')

theorem run_eq_denote :
    ∀ t : TaskNode, (TaskNode.allIds t).Nodup → t.seqsOK = true →
    t.noStrat = true →
    ∃ N, ∀ fuel, N ≤ fuel → ∀ x, runTreeF fuel t x = denote t x := by
  refine sizeOf_rec _ ?_
  intro t ih
  · intro hids hsq hns
    have hkids : ∀ c ∈ synKids t,
        ∃ N, ∀ fuel, N ≤ fuel → ∀ v, runTreeF fuel c v = denote c v := by
      intro c hc
      exact ih c (mem_synKids_sizeOf hc) (mem_synKids_nodup hids hc)
        (mem_synKids_seqsOK hsq hc) (mem_synKids_noStrat hns hc)
    obtain ⟨N₀, hN₀⟩ := uniform_bound
      (fun c N => ∀ fuel, N ≤ fuel → ∀ v, runTreeF fuel c v = denote c v)
      (fun c N N' hNN hP fuel hf v => hP fuel (le_trans hNN hf) v)
      (synKids t) hkids
    obtain ⟨n₀, hn₀⟩ := ex_done (initState t)
    refine ⟨n₀ + N₀ + 1, ?_⟩
    intro fuel hfuel x
    obtain ⟨f, rfl⟩ : ∃ f, fuel = f + 1 := ⟨fuel - 1, by omega⟩
    have hdone : isEveryLeaf ((flattenStep^[f + 1] (initState t)).queue)
        = true := by
      rw [iterate_stable (m := n₀) (by omega) hn₀]
      exact hn₀
    obtain ⟨q, hq1, hq2⟩ := flatten_char t hids hsq hdone
    simp only [runTreeF]
    rw [hq1]
    simp only
    rw [hq2]
    have hcr : ∀ c ∈ synKids t, ∀ v,
        (fun c v' => runTreeF f c v') c v = denote c v := by
      intro c hc v
      exact hN₀ c hc f (by omega) v
    have hmain := exec_noStrat (fun c v' => runTreeF f c v') t hns hcr []
      (.ok x)
    rw [List.append_nil] at hmain
    rw [hmain]
    simp only [execSteps]
    exact except_ok_bind x (denote t)

/-! ### Strategy assignment, marker nesting, sibling order -/

theorem assignSteps_append (xs ys : List EItem) :
    ∀ st : List Strategy,
    assignSteps (xs ++ ys) st
      = ((assignSteps xs st).1 ++ (assignSteps ys (assignSteps xs st).2).1,
         (assignSteps ys (assignSteps xs st).2).2) := by
  induction xs with
  | nil => intro st; rfl
  | cons x xs ih =>
    intro st
    cases x with
    | markerE b s =>
      cases b
      · simp only [List.cons_append, assignSteps]; exact ih _
      · simp only [List.cons_append, assignSteps]; exact ih _
    | leafE i n task =>
      simp only [List.cons_append, assignSteps, List.append_eq]
      rw [ih st]
    | synE n ch =>
      simp only [List.cons_append, assignSteps, List.append_eq]
      rw [ih st]

theorem assign_chainOfE :
    ∀ t : TaskNode, ∀ st : List Strategy,
    assignSteps (chainOfE t) st
      = (leafAssign t (st.head?.map Strategy.sid), st) := by
  intro t
  induction t using TaskNode.my_ind with
  | hleaf i n task =>
    intro st
    rw [chainOfE_leaf]
    simp [assignSteps, leafAssign]
  | hseq i n ch st' ih =>
    intro st
    have hflat : ∀ cur : List Strategy,
        assignSteps (ch.flatMap chainOfE) cur
          = (ch.flatMap (fun c => leafAssign c (cur.head?.map Strategy.sid)),
             cur) := by
      intro cur
      induction ch with
      | nil => rfl
      | cons c ch' ihch =>
        rw [List.flatMap_cons, assignSteps_append,
          ih c (List.mem_cons_self _ _) cur]
        simp only
        rw [ihch (fun c' hc' => ih c' (List.mem_cons_of_mem _ hc'))]
        simp [List.flatMap_cons]
    rw [chainOfE_sequence]
    cases st' with
    | none =>
      rw [show wrapStrat none (ch.flatMap chainOfE) = ch.flatMap chainOfE
        from rfl]
      rw [hflat st, leafAssign_sequence]
      rfl
    | some s =>
      rw [show wrapStrat (some s) (ch.flatMap chainOfE)
          = .markerE true s :: (ch.flatMap chainOfE ++ [.markerE false s])
        from by simp [wrapStrat]]
      simp only [assignSteps]
      rw [assignSteps_append, hflat (s :: st)]
      simp only [assignSteps, leafAssign_sequence]
      simp [innerSid, List.tail]
  | hpar i n ch st' ih =>
    intro st
    rw [chainOfE_parallel]
    cases st' with
    | none =>
      rw [show wrapStrat none [EItem.synE n ch] = [EItem.synE n ch] from rfl]
      simp [assignSteps, leafAssign, innerSid]
    | some s =>
      rw [show wrapStrat (some s) [EItem.synE n ch]
          = .markerE true s :: ([EItem.synE n ch] ++ [.markerE false s])
        from by simp [wrapStrat]]
      simp [assignSteps, leafAssign, innerSid, List.tail]

theorem nestOk_chainOfE :
    ∀ t : TaskNode, ∀ (rest : List EItem) (st : List Nat),
    nestOk (chainOfE t ++ rest) st = nestOk rest st := by
  intro t
  induction t using TaskNode.my_ind with
  | hleaf i n task =>
    intro rest st
    rw [chainOfE_leaf]
    simp [nestOk]
  | hseq i n ch st' ih =>
    intro rest st
    have hflat : ∀ (rest' : List EItem) (cur : List Nat),
        nestOk (ch.flatMap chainOfE ++ rest') cur = nestOk rest' cur := by
      intro rest' cur
      induction ch with
      | nil => rfl
      | cons c ch' ihch =>
        rw [List.flatMap_cons, List.append_assoc,
          ih c (List.mem_cons_self _ _),
          ihch (fun c' hc' => ih c' (List.mem_cons_of_mem _ hc'))]
    rw [chainOfE_sequence]
    cases st' with
    | none => exact hflat rest st
    | some s =>
      rw [show wrapStrat (some s) (ch.flatMap chainOfE)
          = .markerE true s :: (ch.flatMap chainOfE ++ [.markerE false s])
        from by simp [wrapStrat]]
      simp only [List.cons_append, nestOk, List.append_assoc,
        List.singleton_append, List.append_eq, List.nil_append]
      rw [hflat (EItem.markerE false s :: rest) (s.sid :: st)]
      simp [nestOk]
  | hpar i n ch st' ih =>
    intro rest st
    rw [chainOfE_parallel]
    cases st' with
    | none => simp [wrapStrat, nestOk]
    | some s =>
      rw [show wrapStrat (some s) [EItem.synE n ch]
          = .markerE true s :: ([EItem.synE n ch] ++ [.markerE false s])
        from by simp [wrapStrat]]
      simp [nestOk]

theorem spine_segment {s t : TaskNode} (h : SpineIn s t) :
    ∃ pre post, chainOfE t = pre ++ chainOfE s ++ post := by
  induction h with
  | refl => exact ⟨[], [], by simp⟩
  | inSeq c i nm ch st hc hsub ih =>
    obtain ⟨p, q, hpq⟩ := ih
    obtain ⟨l₁, l₂, hch⟩ := List.append_of_mem hc
    rw [chainOfE_sequence, hch]
    cases st with
    | none =>
      refine ⟨l₁.flatMap chainOfE ++ p, q ++ l₂.flatMap chainOfE, ?_⟩
      simp [wrapStrat, List.flatMap_append, List.flatMap_cons, hpq,
        List.append_assoc]
    | some str =>
      refine ⟨.markerE true str :: (l₁.flatMap chainOfE ++ p),
        q ++ l₂.flatMap chainOfE ++ [.markerE false str], ?_⟩
      simp [wrapStrat, List.flatMap_append, List.flatMap_cons, hpq,
        List.append_assoc]

/-! ### Properties of the parallel merge -/

theorem innerZip_map_fst {α β : Type} :
    ∀ (as : List α) (bs : List β),
    (innerZip as bs).map Prod.fst = as.take bs.length := by
  intro as
  induction as with
  | nil => intro bs; cases bs <;> rfl
  | cons a as ih =>
    intro bs
    cases bs with
    | nil => rfl
    | cons b bs => simp [innerZip, ih]

theorem innerZip_map_snd {α β : Type} :
    ∀ (as : List α) (bs : List β),
    (innerZip as bs).map Prod.snd = bs.take as.length := by
  intro as
  induction as with
  | nil => intro bs; cases bs <;> rfl
  | cons a as ih =>
    intro bs
    cases bs with
    | nil => rfl
    | cons b bs => simp [innerZip, ih]

theorem collectAll_ok : ∀ rs : List V, collectAll (rs.map .ok) = .ok rs := by
  intro rs
  induction rs with
  | nil => rfl
  | cons r rs ih =>
    simp [collectAll, ih, Except.map]

theorem synTask_ok (cr : TaskNode → V → Res) (ch : List TaskNode)
    (rs : List V) (v : V) (h : ch.map (fun c => cr c v) = rs.map .ok) :
    synTask cr ch v
      = .ok (V.obj (fromEntries (innerZip (ch.map TaskNode.nameOf) rs))) := by
  rw [synTask]
  rw [h, collectAll_ok]
  rfl

theorem setKey_lookup (m : List (String × V)) (k : String) (v : V)
    (k' : String) :
    assocLookup (setKey m k v) k'
      = if k = k' then some v else assocLookup m k' := by
  induction m with
  | nil =>
    by_cases hk : k = k' <;> simp [setKey, assocLookup, hk]
  | cons p rest ih =>
    obtain ⟨k₀, v₀⟩ := p
    by_cases h0 : k₀ = k
    · subst h0
      by_cases hk : k₀ = k' <;> simp [setKey, assocLookup, hk]
    · by_cases hk : k₀ = k'
      · subst hk
        have : ¬ k = k₀ := fun hc => h0 hc.symm
        simp [setKey, assocLookup, h0, this]
      · simp [setKey, assocLookup, h0, hk, ih]

theorem setKey_keys (m : List (String × V)) (k : String) (v : V) :
    (setKey m k v).map Prod.fst
      = if k ∈ m.map Prod.fst then m.map Prod.fst
        else m.map Prod.fst ++ [k] := by
  induction m with
  | nil => simp [setKey]
  | cons p rest ih =>
    obtain ⟨k₀, v₀⟩ := p
    by_cases h0 : k₀ = k
    · subst h0
      simp [setKey]
    · have hne : ¬ k = k₀ := fun hc => h0 hc.symm
      by_cases hmem : k ∈ rest.map Prod.fst <;>
        simp [setKey, h0, hne, hmem, ih]

theorem foldl_setKey_lookup :
    ∀ (ps : List (String × V)) (acc : List (String × V)) (k : String),
    assocLookup (ps.foldl (fun a p => setKey a p.1 p.2) acc) k
      = match lastVal ps k with
        | some v => some v
        | none => assocLookup acc k := by
  intro ps
  induction ps with
  | nil => intro acc k; rfl
  | cons p rest ih =>
    intro acc k
    obtain ⟨k₁, v₁⟩ := p
    rw [List.foldl_cons, ih (setKey acc k₁ v₁) k]
    rcases hl : lastVal rest k with _ | v
    · simp only [lastVal, hl]
      rw [setKey_lookup]
      by_cases hk : k₁ = k <;> simp [hk]
    · simp only [lastVal, hl]

theorem fromEntries_lookup (ps : List (String × V)) (k : String) :
    assocLookup (fromEntries ps) k = lastVal ps k := by
  rw [fromEntries, foldl_setKey_lookup]
  rcases hl : lastVal ps k with _ | v <;> simp [assocLookup]

theorem foldl_setKey_keys_mem :
    ∀ (ps : List (String × V)) (acc : List (String × V)) (k : String),
    (k ∈ (ps.foldl (fun a p => setKey a p.1 p.2) acc).map Prod.fst
      ↔ k ∈ acc.map Prod.fst ∨ k ∈ ps.map Prod.fst) := by
  intro ps
  induction ps with
  | nil => intro acc k; simp
  | cons p rest ih =>
    intro acc k
    obtain ⟨k₁, v₁⟩ := p
    rw [List.foldl_cons, ih (setKey acc k₁ v₁) k]
    rw [setKey_keys]
    by_cases hmem : k₁ ∈ acc.map Prod.fst
    · simp only [hmem, if_true, List.map_cons, List.mem_cons]
      constructor
      · intro h
        rcases h with h | h
        · exact Or.inl h
        · exact Or.inr (Or.inr h)
      · intro h
        rcases h with h | h | h
        · exact Or.inl h
        · rw [h]; exact Or.inl hmem
        · exact Or.inr h
    · simp only [hmem, if_false, List.mem_append, List.mem_singleton,
        List.map_cons, List.mem_cons]
      tauto

theorem setKey_keys_nodup {m : List (String × V)} (k : String) (v : V)
    (h : (m.map Prod.fst).Nodup) : ((setKey m k v).map Prod.fst).Nodup := by
  rw [setKey_keys]
  by_cases hmem : k ∈ m.map Prod.fst
  · simpa [hmem] using h
  · simp only [hmem, if_false]
    rw [List.nodup_append]
    exact ⟨h, List.nodup_singleton _, by
      intro x hx hx'
      simp only [List.mem_singleton] at hx'
      rw [hx'] at hx
      exact hmem hx⟩

theorem fromEntries_keys_nodup (ps : List (String × V)) :
    ((fromEntries ps).map Prod.fst).Nodup := by
  rw [fromEntries]
  have : ∀ acc : List (String × V), (acc.map Prod.fst).Nodup →
      ((ps.foldl (fun a p => setKey a p.1 p.2) acc).map Prod.fst).Nodup := by
    induction ps with
    | nil => intro acc h; exact h
    | cons p rest ih =>
      intro acc h
      rw [List.foldl_cons]
      exact ih _ (setKey_keys_nodup p.1 p.2 h)
  exact this [] (by simp)

theorem nodup_subset_length_lt {l₁ l₂ : List String} (h1 : l₁.Nodup)
    (hsub : ∀ x ∈ l₁, x ∈ l₂) (h2 : ¬ l₂.Nodup) :
    l₁.length < l₂.length := by
  have e1 : l₁.length = l₁.toFinset.card :=
    (List.toFinset_card_of_nodup h1).symm
  have e2 : l₁.toFinset.card ≤ l₂.toFinset.card := by
    apply Finset.card_le_card
    intro x hx
    rw [List.mem_toFinset] at hx ⊢
    exact hsub x hx
  have e3 : l₂.toFinset.card = l₂.dedup.length := List.card_toFinset l₂
  have e4 : l₂.dedup.length < l₂.length := by
    have hsl : l₂.dedup.Sublist l₂ := List.dedup_sublist l₂
    rcases Nat.lt_or_ge l₂.dedup.length l₂.length with hlt | hge
    · exact hlt
    · exfalso
      have : l₂.dedup.length = l₂.length :=
        Nat.le_antisymm (hsl.length_le) hge
      have := hsl.eq_of_length this
      exact h2 (List.dedup_eq_self.1 this)
  omega

theorem fromEntries_length_lt (ps : List (String × V))
    (hdup : ¬ (ps.map Prod.fst).Nodup) :
    (fromEntries ps).length < ps.length := by
  have hlen1 : (fromEntries ps).length
      = ((fromEntries ps).map Prod.fst).length := (List.length_map _ _).symm
  have hlen2 : ps.length = (ps.map Prod.fst).length :=
    (List.length_map _ _).symm
  rw [hlen1, hlen2]
  apply nodup_subset_length_lt (fromEntries_keys_nodup ps) _ hdup
  intro x hx
  have := (foldl_setKey_keys_mem ps [] x).1 (by rwa [fromEntries] at hx)
  simpa using this

/-! ### Failure propagation and the retry loop -/

theorem exec_error_propagates (cr : TaskNode → V → Res) :
    ∀ (chain : List EItem) (st : List Strategy) (e : String),
    (assignSteps chain st).1.all (fun p => p.2.isNone) = true →
    (execSteps cr chain st (.error e)).2 = .error e := by
  intro chain
  induction chain with
  | nil => intro st e _; rfl
  | cons x rest ih =>
    intro st e hall
    cases x with
    | markerE b s =>
      cases b
      · simp only [assignSteps] at hall
        simp only [execSteps]
        exact ih _ e hall
      · simp only [assignSteps] at hall
        simp only [execSteps]
        exact ih _ e hall
    | leafE i n task =>
      simp only [assignSteps, List.all_cons, Bool.and_eq_true] at hall
      have hst : st = [] := by
        rcases st with _ | ⟨s, st'⟩
        · rfl
        · simp [Option.isNone] at hall
      subst hst
      simp only [execSteps, applyLeaf]
      exact ih [] e hall.2
    | synE n ch =>
      simp only [assignSteps, List.all_cons, Bool.and_eq_true] at hall
      have hst : st = [] := by
        rcases st with _ | ⟨s, st'⟩
        · rfl
        · simp [Option.isNone] at hall
      subst hst
      simp only [execSteps, applyLeaf]
      exact ih [] e hall.2

theorem retryLoop_ok (outcomes : Nat → Res) (v : V) :
    ∀ (k r idx : Nat) (lastE : Option String), k < r →
    (∀ j, j < k → ∃ e, outcomes (idx + j) = .error e) →
    outcomes (idx + k) = .ok v →
    retryLoop outcomes r idx lastE = (.ok v, idx + k + 1) := by
  intro k
  induction k with
  | zero =>
    intro r idx lastE hk _ hok
    obtain ⟨r', rfl⟩ : ∃ r', r = r' + 1 := ⟨r - 1, by omega⟩
    rw [Nat.add_zero] at hok
    simp [retryLoop, hok]
  | succ k ih =>
    intro r idx lastE hk herrs hok
    obtain ⟨r', rfl⟩ : ∃ r', r = r' + 1 := ⟨r - 1, by omega⟩
    obtain ⟨e, he⟩ := herrs 0 (by omega)
    rw [Nat.add_zero] at he
    rw [retryLoop, he]
    have hres := ih r' (idx + 1) (some e) (by omega)
      (fun j hj => by
        have := herrs (j + 1) (by omega)
        rwa [show idx + (j + 1) = idx + 1 + j by omega] at this)
      (by rwa [show idx + 1 + k = idx + (k + 1) by omega])
    show retryLoop outcomes r' (idx + 1) (some e) = _
    rw [hres]
    congr 1
    omega

theorem retryLoop_all_fail (outcomes : Nat → Res) (es : Nat → String) :
    ∀ (r idx : Nat) (lastE : Option String), 0 < r →
    (∀ j, j < r → outcomes (idx + j) = .error (es (idx + j))) →
    retryLoop outcomes r idx lastE
      = (.error (es (idx + r - 1)), idx + r) := by
  intro r
  induction r with
  | zero => intro idx lastE h; omega
  | succ r ih =>
    intro idx lastE _ herrs
    have h0 := herrs 0 (by omega)
    rw [Nat.add_zero] at h0
    rw [retryLoop, h0]
    rcases Nat.eq_zero_or_pos r with hr | hr
    · subst hr
      simp [retryLoop]
    · have hres := ih (idx + 1) (some (es idx)) hr
        (fun j hj => by
          have := herrs (j + 1) (by omega)
          rwa [show idx + (j + 1) = idx + 1 + j by omega] at this)
      show retryLoop outcomes r (idx + 1) (some (es idx)) = _
      rw [hres]
      have h1 : idx + 1 + r - 1 = idx + (r + 1) - 1 := by omega
      have h2 : idx + 1 + r = idx + (r + 1) := by omega
      rw [h1, h2]

/-! ### The claims -/

theorem claim_C1 (t : TaskNode) (x : V)
    (h1 : (TaskNode.allIds t).Nodup) (h2 : t.seqsOK = true)
    (h3 : t.noStrat = true) :
    ∃ N, ∀ fuel, N ≤ fuel → runTreeF fuel t x = denote t x := by
  obtain ⟨N, hN⟩ := run_eq_denote t h1 h2 h3
  exact ⟨N, fun fuel hf => hN fuel hf x⟩

theorem claim_C1_witness :
    ∃ N, ∀ fuel, N ≤ fuel →
      runTreeF fuel wTree1 (V.str "start: ") = denote wTree1 (V.str "start: ") :=
  claim_C1 wTree1 (V.str "start: ")
    (by simp [wTree1, TaskNode.allIds])
    (by simp [wTree1, TaskNode.seqsOK])
    (by simp [wTree1, TaskNode.noStrat])

theorem claim_C2 (t : TaskNode)
    (h1 : (TaskNode.allIds t).Nodup) (h2 : t.seqsOK = true) (n : Nat)
    (hdone : isEveryLeaf ((flattenStep^[n] (initState t)).queue) = true) :
    ∃ q, flattenAt n t = some q ∧
      (assignSteps (q.map erase) []).1 = leafAssign t none := by
  obtain ⟨q, hq1, hq2⟩ := flatten_char t h1 h2 hdone
  refine ⟨q, hq1, ?_⟩
  rw [hq2, assign_chainOfE t []]
  rfl

theorem claim_C2_witness :
    ∃ q, flattenAt 4 wTree2 = some q ∧
      (assignSteps (q.map erase) []).1 = leafAssign wTree2 none :=
  claim_C2 wTree2
    (by simp [wTree2, TaskNode.allIds])
    (by simp [wTree2, TaskNode.seqsOK])
    4 (by decide)

theorem claim_C3_counterexample :
    (TaskNode.allIds cex3tree).Nodup
    ∧ isEveryLeaf ((flattenStep^[1] (initState cex3tree)).queue) = true
    ∧ flattenAt 1 cex3tree = none :=
  ⟨by simp [cex3tree, TaskNode.allIds], rfl, rfl⟩

theorem claim_C3 (t : TaskNode)
    (h1 : (TaskNode.allIds t).Nodup) (h2 : t.seqsOK = true) :
    ∃ n, ∀ m, n ≤ m → ∃ q, flattenAt m t = some q := by
  obtain ⟨n, hn⟩ := ex_done (initState t)
  refine ⟨n, fun m hm => ?_⟩
  have hdone : isEveryLeaf ((flattenStep^[m] (initState t)).queue) = true := by
    rw [iterate_stable hm hn]
    exact hn
  obtain ⟨q, hq1, _⟩ := flatten_char t h1 h2 hdone
  exact ⟨q, hq1⟩

theorem claim_C3_witness :
    ∃ n, ∀ m, n ≤ m → ∃ q, flattenAt m wTree1 = some q :=
  claim_C3 wTree1
    (by simp [wTree1, TaskNode.allIds])
    (by simp [wTree1, TaskNode.seqsOK])

theorem claim_C4 (t : TaskNode) :
    ∃ n, isEveryLeaf ((flattenStep^[n] (initState t)).queue) = true :=
  ex_done (initState t)

theorem claim_C5 (t : TaskNode) (i : Nat) (nm : String)
    (ch : List TaskNode) (st : Option Strategy)
    (h1 : (TaskNode.allIds t).Nodup) (h2 : t.seqsOK = true)
    (hsp : SpineIn (.sequence i nm ch st) t) (n : Nat)
    (hdone : isEveryLeaf ((flattenStep^[n] (initState t)).queue) = true) :
    ∃ q pre post, flattenAt n t = some q ∧
      q.map erase = pre ++ wrapStrat st (ch.flatMap chainOfE) ++ post := by
  obtain ⟨q, hq1, hq2⟩ := flatten_char t h1 h2 hdone
  obtain ⟨pre, post, hseg⟩ := spine_segment hsp
  refine ⟨q, pre, post, hq1, ?_⟩
  rw [hq2, hseg, chainOfE_sequence]

theorem claim_C5_witness :
    ∃ q pre post, flattenAt 3 wTree5 = some q ∧
      q.map erase = pre
        ++ wrapStrat none ([TaskNode.leaf 3 "b" (fun v => .ok v)].flatMap
            chainOfE) ++ post :=
  claim_C5 wTree5 2 "inner" [.leaf 3 "b" (fun v => .ok v)] none
    (by simp [wTree5, TaskNode.allIds])
    (by simp [wTree5, TaskNode.seqsOK])
    (SpineIn.inSeq _ _ _ _ _ _
      (List.mem_cons_of_mem _ (List.mem_cons_self _ _)) (SpineIn.refl _))
    3 (by decide)

theorem claim_C6 (t : TaskNode)
    (h1 : (TaskNode.allIds t).Nodup) (h2 : t.seqsOK = true) (n : Nat)
    (hdone : isEveryLeaf ((flattenStep^[n] (initState t)).queue) = true) :
    ∃ q, flattenAt n t = some q ∧ nestOk (q.map erase) [] = true := by
  obtain ⟨q, hq1, hq2⟩ := flatten_char t h1 h2 hdone
  refine ⟨q, hq1, ?_⟩
  rw [hq2]
  have := nestOk_chainOfE t [] []
  rwa [List.append_nil] at this

theorem claim_C6_witness :
    ∃ q, flattenAt 4 wTree2 = some q ∧ nestOk (q.map erase) [] = true :=
  claim_C6 wTree2
    (by simp [wTree2, TaskNode.allIds])
    (by simp [wTree2, TaskNode.seqsOK])
    4 (by decide)

theorem claim_C7 (ch : List TaskNode) (rs : List V) (v : V) (f : Nat)
    (h : ch.map (fun c => runTreeF f c v) = rs.map .ok) :
    synTask (fun c v' => runTreeF f c v') ch v
        = .ok (.obj (fromEntries (innerZip (ch.map TaskNode.nameOf) rs)))
    ∧ ∀ (ns : List String) (vs : List V),
        (innerZip ns vs).map Prod.fst = ns.take vs.length
        ∧ (innerZip ns vs).map Prod.snd = vs.take ns.length :=
  ⟨synTask_ok _ ch rs v h,
   fun ns vs => ⟨innerZip_map_fst ns vs, innerZip_map_snd ns vs⟩⟩

theorem claim_C7_witness :
    synTask (fun c v' => runTreeF 1 c v')
        [.leaf 1 "p1" (fun w => .ok w), .leaf 2 "p2" (fun w => .ok w)]
        (V.str "x")
        = .ok (.obj (fromEntries (innerZip
            (([.leaf 1 "p1" (fun w => .ok w),
               .leaf 2 "p2" (fun w => .ok w)] : List TaskNode).map
              TaskNode.nameOf)
            [V.str "x", V.str "x"])))
    ∧ ∀ (ns : List String) (vs : List V),
        (innerZip ns vs).map Prod.fst = ns.take vs.length
        ∧ (innerZip ns vs).map Prod.snd = vs.take ns.length :=
  claim_C7 [.leaf 1 "p1" (fun w => .ok w), .leaf 2 "p2" (fun w => .ok w)]
    [V.str "x", V.str "x"] (V.str "x") 1 rfl

theorem claim_C8_counterexample :
    runTreeF 3 cex8tree (V.str "x") = .ok (V.str "recovered")
    ∧ runTreeF 3 cex8tree (V.str "x") ≠ .error "boom" :=
  ⟨rfl, fun hc => Except.noConfusion (rfl.trans hc :
    (Except.ok (V.str "recovered") : Res) = .error "boom")⟩

theorem claim_C8 (cr : TaskNode → V → Res) (idl : Nat) (nm : String)
    (task : V → Res) (rest : List EItem) (x : V) (e : String)
    (hfail : task x = .error e)
    (hnostrat : (assignSteps rest []).1.all (fun p => p.2.isNone) = true) :
    (execSteps cr (.leafE idl nm task :: rest) [] (.ok x)).2 = .error e := by
  simp only [execSteps, applyLeaf, except_ok_bind, hfail]
  exact exec_error_propagates cr rest [] e hnostrat

theorem claim_C8_witness :
    (execSteps (fun _ _ => .error "unused")
      (.leafE 1 "boom" (fun _ => .error "boom")
        :: [.leafE 2 "next" (fun w => .ok w)]) [] (.ok (V.str "x"))).2
      = .error "boom" :=
  claim_C8 (fun _ _ => .error "unused") 1 "boom" (fun _ => .error "boom")
    [.leafE 2 "next" (fun w => .ok w)] (V.str "x") "boom" rfl rfl

theorem claim_C9 :
    (∀ (n k : Nat) (outcomes : Nat → Res) (v : V), 0 < n → k < n →
      (∀ i, i < k → ∃ e, outcomes i = .error e) →
      outcomes k = .ok v →
      retryRun n outcomes = (.ok v, k + 1))
    ∧ (∀ (n : Nat) (outcomes : Nat → Res) (es : Nat → String), 0 < n →
      (∀ i, i < n → outcomes i = .error (es i)) →
      retryRun n outcomes = (.error (es (n - 1)), n)) := by
  constructor
  · intro n k outcomes v _ hk herr hok
    rw [retryRun]
    have := retryLoop_ok outcomes v k n 0 none hk
      (fun j hj => by simpa using herr j hj) (by simpa using hok)
    simpa using this
  · intro n outcomes es hn herr
    rw [retryRun]
    have := retryLoop_all_fail outcomes es n 0 none hn
      (fun j hj => by simpa using herr j hj)
    simpa using this

theorem claim_C9_witness :
    retryRun 2 (fun i => if i = 0 then .error "e" else .ok (V.str "s"))
      = (.ok (V.str "s"), 2)
    ∧ retryRun 2 (fun _ => .error "e") = (.error "e", 2) :=
  ⟨claim_C9.1 2 1 (fun i => if i = 0 then .error "e" else .ok (V.str "s"))
      (V.str "s") (by omega) (by omega)
      (fun i hi => ⟨"e", by
        have : i = 0 := by omega
        rw [this]
        rfl⟩)
      rfl,
   claim_C9.2 2 (fun _ => .error "e") (fun _ => "e") (by omega)
      (fun i _ => rfl)⟩

theorem claim_C10 (ch : List TaskNode) (rs : List V) (v : V) (f : Nat)
    (h : ch.map (fun c => runTreeF f c v) = rs.map .ok)
    (hdup : ¬ (ch.map TaskNode.nameOf).Nodup) :
    ∃ m, synTask (fun c v' => runTreeF f c v') ch v = .ok (.obj m)
      ∧ m.length < ch.length
      ∧ ∀ k, assocLookup m k
          = lastVal (innerZip (ch.map TaskNode.nameOf) rs) k := by
  have hlen : rs.length = ch.length := by
    have := congrArg List.length h
    simpa using this.symm
  refine ⟨fromEntries (innerZip (ch.map TaskNode.nameOf) rs),
    synTask_ok _ ch rs v h, ?_, fun k => fromEntries_lookup _ k⟩
  have hfst : (innerZip (ch.map TaskNode.nameOf) rs).map Prod.fst
      = ch.map TaskNode.nameOf := by
    rw [innerZip_map_fst, hlen]
    rw [show ch.length = (ch.map TaskNode.nameOf).length by simp]
    exact List.take_length _
  have hlt := fromEntries_length_lt (innerZip (ch.map TaskNode.nameOf) rs)
    (by rw [hfst]; exact hdup)
  have hzlen : (innerZip (ch.map TaskNode.nameOf) rs).length = ch.length := by
    have := congrArg List.length hfst
    simpa using this
  omega

theorem claim_C10_witness :
    ∃ m, synTask (fun c v' => runTreeF 1 c v')
        [.leaf 1 "a" (fun w => .ok w),
         .leaf 2 "a" (fun _ => .ok (V.str "z"))] (V.str "x")
        = .ok (.obj m)
      ∧ m.length
          < ([TaskNode.leaf 1 "a" (fun w => .ok w),
              TaskNode.leaf 2 "a" (fun _ => .ok (V.str "z"))] : List TaskNode).length
      ∧ ∀ k, assocLookup m k
          = lastVal (innerZip
              (([TaskNode.leaf 1 "a" (fun w => .ok w),
                 TaskNode.leaf 2 "a" (fun _ => .ok (V.str "z"))] :
                  List TaskNode).map TaskNode.nameOf)
              [V.str "x", V.str "z"]) k :=
  claim_C10
    [.leaf 1 "a" (fun w => .ok w), .leaf 2 "a" (fun _ => .ok (V.str "z"))]
    [V.str "x", V.str "z"] (V.str "x") 1 rfl (by decide)

